import Mathlib

/-!
Verification of the kzg-dleq TypeScript library against its design
specification.  The development shallowly embeds the relevant source
files:

* `src/lib/crypto.ts`    — curve constants, modular helpers, nonce
  derivation, `ecAddress`;
* `src/lib/bytes.ts`     — byte encoders used by the Fiat–Shamir packing;
* `src/lib/challenge.ts` — `buildChallenge`;
* `src/lib/verifier.ts`  — `verifyProof`;
* `src/lib/cheat_prover.ts` — `generateProof`;
* `src/lib/srs_prover.ts`   — `generateSRS`, `commitPolynomial`,
  `generateProofUsingSRS`;
* `src/lib/prover.ts`    — `proverStart`, `proverRespond`, `proverFinalize`;
* `src/lib/prover_vole.ts` — `proverVoleFinalize`;
* `src/lib/bits.ts`, `src/lib/beaver.ts`, `src/lib/role.ts` — the
  bit-container, Beaver-OT and ROLE layers.

Scalars are embedded as `Int` (TypeScript `bigint`), with the JavaScript
`mod` helper of noble-curves rendered as `Int.emod` (both return the
canonical non-negative residue for a positive modulus).  Byte strings are
`List Int` (each entry a byte value).  Fallible TypeScript code (functions
that can `throw`) is rendered in the `Option` monad, `none` standing for a
thrown exception.

The secp256k1 elliptic-curve layer is provided by the external
`@noble/curves` package, not by this repository; it is embedded
abstractly as a structure `ECModel`: an additive commutative group of
curve points (`none`/exceptions for operations whose affine result would
be the point at infinity, which has no affine representation), an
abstract Keccak-256 function, and an affine coordinate representation.
All theorems are proved for every such model; a small executable model
`fakeECModel` (scalars of `ZMod secpN` standing for the cyclic group
generated by `G`) instantiates the hypotheses for concrete witnesses.
-/

/-- secp256k1 group order `N` (order of the base point), as a natural. -/
def secpNn : Nat := 0xFFFFFFFFFFFFFFFFFFFFFFFFFFFFFFFEBAAEDCE6AF48A03BBFD25E8CD0364141

/-- secp256k1 base-field prime `P`, as a natural. -/
def secpPn : Nat := 0xFFFFFFFFFFFFFFFFFFFFFFFFFFFFFFFFFFFFFFFFFFFFFFFFFFFFFFFEFFFFFC2F

/-- `N` as an integer (`export const N` in `crypto.ts`). -/
def secpN : Int := (secpNn : Int)

/-- `P` as an integer (`export const P` in `crypto.ts`). -/
def secpP : Int := (secpPn : Int)

/-! ### Byte utilities (`src/lib/bytes.ts`)

Bytes are modelled as integers; a byte string is a `List Int`.
JavaScript `BigInt` arithmetic shift `>>` is floor division by a power of
two (`Int.fdiv`), and `& 0xFF` on a `BigInt` (infinite two's complement)
is the Euclidean remainder `Int.emod · 256`. -/

/-- `encodeU8` (`bytes.ts`): one byte, `value & 0xff`. -/
def encodeU8 (value : Int) : List Int := [value.emod 256]

/-- `encodeU256` (`bytes.ts`): 32 bytes big-endian,
byte `i` is `(value >> (8*(31-i))) & 0xFF`. -/
def encodeU256 (value : Int) : List Int :=
  (List.range 32).map (fun i => (value.fdiv ((2 : Int) ^ (8 * (31 - i)))).emod 256)

/-- `encodeAddress` (`bytes.ts`): always produces exactly 20 bytes.  The
source parses a hex string two characters at a time, substituting `0` for
missing characters; an address is embedded here directly as its byte
list, so this is `take 20` padded with zero bytes. -/
def encodeAddressB (addr : List Int) : List Int :=
  addr.take 20 ++ List.replicate (20 - addr.length) 0

/-- Big-endian interpretation of a byte string as an unsigned integer
(`bytesToNumberBE` of noble, and viem `BigInt(keccak256(...))`). -/
def bytesToIntBE (bs : List Int) : Int :=
  bs.foldl (fun acc b => acc * 256 + b) 0

/-- `hash.slice(-20)`: the last 20 entries of a byte string. -/
def takeLast20 (bs : List Int) : List Int := bs.drop (bs.length - 20)

/-! ### Scalar-field helpers (`@guildofweavers/galois` prime field over `N`)

`createPrimeField(N)` supplies mod-`N` arithmetic on canonical
representatives in `[0, N)`. -/

/-- `Field.add`. -/
def fAdd (a b : Int) : Int := (a + b).emod secpN

/-- `Field.sub`. -/
def fSub (a b : Int) : Int := (a - b).emod secpN

/-- `Field.mul`. -/
def fMul (a b : Int) : Int := (a * b).emod secpN

/-- `Field.neg`. -/
def fNeg (a : Int) : Int := (-a).emod secpN

/-- Coefficient normalisation `p.map(c => mod(c, N))` used by both provers. -/
def pnorm (p : List Int) : List Int := p.map (fun c => c.emod secpN)

/-- Polynomial evaluation modulo `N` (Horner form).  Embeds both
`Field.evalPolyAt` of the galois library and the repository's `evalPoly`
helper of `crypto.ts` (not shipped under `src/`; the specification, §1 and
§4.5, requires plain evaluation of the ascending-coefficient vector):
`Σ cᵢ·xⁱ (mod N)`, returned as the canonical representative. -/
def evalPolyF (cs : List Int) (x : Int) : Int :=
  (cs.foldr (fun c acc => c + x * acc) 0).emod secpN

/-- `Field.combineVectors a b = Σ aᵢ·bᵢ (mod N)` (inner product). -/
def combineVectors (a b : List Int) : Int :=
  ((a.zip b).foldl (fun acc (p : Int × Int) => acc + p.1 * p.2) 0).emod secpN

/-- The synthetic-division value array of `generateProofUsingSRS`
(`srs_prover.ts` lines 99–104): `b[d] = c[d]`,
`b[i] = mod(c[i] + mod(x*b[i+1], N), N)` for `i = d-1..0`. -/
def synB (x : Int) : List Int → List Int
  | [] => []
  | [c] => [c]
  | c :: rest =>
    match synB x rest with
    | [] => [c]
    | b1 :: bs => (c + (x * b1).emod secpN).emod secpN :: b1 :: bs

/-- Quotient by the monic linear divisor `(X - x)`: the tail of the
synthetic-division array (`qCoeffs = b.slice(1)` in `srs_prover.ts`;
also embeds `Field.divPolys(p, [-x, 1])` of the galois library used by
`prover.ts`, whose Euclidean quotient for this monic divisor is exactly
the synthetic quotient). -/
def divPolysLin (p : List Int) (x : Int) : List Int := (synB x p).tail

/-- Fuel-driven extended Euclidean algorithm:
`egcd fuel a b = (g, s, t)` with `g = gcd a b` and `s·a + t·b = g`
whenever `b ≤ fuel`. -/
def egcd : Nat → Nat → Nat → Nat × Int × Int
  | 0, a, _ => (a, 1, 0)
  | fuel + 1, a, b =>
    if b = 0 then (a, 1, 0)
    else
      let r := egcd fuel b (a % b)
      (r.1, r.2.2, r.2.1 - (a / b : Nat) * r.2.2)

/-- Modular inverse (noble `invert`): `none` models the throw on a
non-invertible (in particular zero) argument; otherwise the canonical
representative of the inverse.  Computed by the extended Euclidean
algorithm. -/
def invMod (a m : Int) : Option Int :=
  let a' := a.emod m
  if m ≤ 0 then none
  else
    let r := egcd (m.toNat + 1) a'.toNat m.toNat
    if r.1 = 1 then some (r.2.1.emod m) else none

/-! ### Fiat–Shamir challenge (`src/lib/challenge.ts`) -/

/-- `buildChallenge` (`challenge.ts`): keccak of the packed transcript
`0x01 ‖ Cx ‖ Wx ‖ Px ‖ Py ‖ A1addr ‖ A2addr ‖ x ‖ parity`, reduced
mod `N`.  `keccak` abstracts the external Keccak-256 function; addresses
are passed as byte lists (the hex round-trip of the source is the
identity on them). -/
def buildChallenge (keccak : List Int → List Int)
    (Cx Wx Px Py : Int) (A1addr A2addr : List Int) (x parity : Int) : Int :=
  let challengeData :=
    encodeU8 0x01 ++ encodeU256 Cx ++ encodeU256 Wx ++ encodeU256 Px ++
    encodeU256 Py ++ encodeAddressB A1addr ++ encodeAddressB A2addr ++
    encodeU256 x ++ encodeU8 parity
  (bytesToIntBE (keccak challengeData)).emod secpN

/-- Big-endian fixed-width byte string of a non-negative integer, as the
specification's `uint256_be` / `uint8` notation (§4.3). -/
def specBE (width : Nat) (v : Int) : List Int :=
  (List.range width).map (fun i => (v / ((2 : Int) ^ (8 * (width - 1 - i)))).emod 256)

/-- The specification's challenge packing (§4.3), written from the spec's
words: `0x01 ‖ uint256_be(Cx) ‖ uint256_be(Wx) ‖ uint256_be(Px) ‖
uint256_be(Py) ‖ bytes20(A1addr) ‖ bytes20(A2addr) ‖ uint256_be(x) ‖
uint8(parity)`. -/
def specChallengePacking (Cx Wx Px Py : Int) (A1addr A2addr : List Int)
    (x parity : Int) : List Int :=
  [0x01] ++ specBE 32 Cx ++ specBE 32 Wx ++ specBE 32 Px ++ specBE 32 Py ++
  A1addr ++ A2addr ++ specBE 32 x ++ [parity]

/-! ### Deterministic nonce (`crypto.ts` `deterministicNonce`)

Only the `bigint` branch of the context encoding is exercised by the
provers (`proverStart`, `proverVoleStart` pass five scalars), so parts
are embedded as a list of integers; each is encoded as the 32-byte
big-endian form of its residue mod `N` (`enc32`). -/

/-- UTF-8 bytes of the domain-separation string `"dleq-nonce-v1"`. -/
def dleqNonceTag : List Int := [100, 108, 101, 113, 45, 110, 111, 110, 99, 101, 45, 118, 49]

/-- `enc32` of `deterministicNonce`: `bigIntToBytes(mod(v, N), 32)`. -/
def enc32 (v : Int) : List Int := encodeU256 (v.emod secpN)

/-- `deterministicNonce` (`crypto.ts`): keccak of the domain tag, the
encoded secret and the encoded parts, mapped into `[1, N)`. -/
def deterministicNonce (keccak : List Int → List Int) (secret : Int)
    (parts : List Int) : Int :=
  let buf := dleqNonceTag ++ enc32 secret ++ (parts.map enc32).flatten
  (bytesToIntBE (keccak buf)).emod (secpN - 1) + 1

/-- Parity packing `(Cy & 1n) | ((Wy & 1n) << 1n)` of the verifier and
provers; for the disjoint bit positions involved this is
`Cy % 2 + 2 * (Wy % 2)`. -/
def parityOf (cy wy : Int) : Int := cy.emod 2 + 2 * (wy.emod 2)

/-! ### The elliptic-curve layer

`@noble/curves` (external dependency) supplies secp256k1.  Its affine
API, as the repository uses it, is:

* `Point.fromAffine {x, y}` — validates the coordinate pair and yields a
  curve point, throwing on an invalid pair (`isOnCurve` in `crypto.ts`
  wraps exactly this in `try/catch`);
* `add` / `subtract` / `multiply(mod(k, N))` followed by `toAffine()` —
  the group operations; `multiply` throws on a zero scalar, and
  `toAffine` throws when the result is the point at infinity, which has
  no affine representation (spec §3: "The point at infinity is not
  representable; any operation that would yield it must fail").

This is embedded as an abstract additive commutative group of order
dividing `N` whose distinguished base point `G` has order exactly `N`,
together with the affine-representation maps. -/

structure ECModel where
  /-- The type of (non-infinity and infinity) curve points; `0` is the
  point at infinity. -/
  Pt : Type
  [grp : AddCommGroup Pt]
  [deq : DecidableEq Pt]
  /-- The base point `G = (GX, GY)`. -/
  G : Pt
  /-- Abstract Keccak-256 over byte strings. -/
  keccak : List Int → List Int
  /-- `Point.fromAffine`: `some` on a valid affine pair, `none` for the
  throw. -/
  toPt : Int × Int → Option Pt
  /-- `toAffine`: affine coordinates of a point (meaningful away from the
  point at infinity). -/
  coords : Pt → Int × Int
  /-- The group exponent divides `N`: `N·p = 0` for every point. -/
  smul_N : ∀ p : Pt, (secpN : Int) • p = 0
  /-- The base point has order exactly `N`. -/
  G_ord : ∀ m : Int, 0 < m → m < secpN → m • G ≠ 0
  /-- A valid affine pair denotes a unique non-infinity point with those
  coordinates. -/
  toPt_some : ∀ c p, toPt c = some p → p ≠ 0 ∧ coords p = c
  /-- Every non-infinity point is denoted by its affine pair. -/
  toPt_coords : ∀ p : Pt, p ≠ 0 → toPt (coords p) = some p
  /-- Affine coordinates lie in the base field range `[0, P)`. -/
  coords_range : ∀ p : Pt, p ≠ 0 →
    0 ≤ (coords p).1 ∧ (coords p).1 < secpP ∧ 0 ≤ (coords p).2 ∧ (coords p).2 < secpP

instance (M : ECModel) : AddCommGroup M.Pt := M.grp

instance (M : ECModel) : DecidableEq M.Pt := M.deq

/-- `ecMul` on a parsed point (`crypto.ts`):
`point.multiply(mod(scalar, N)).toAffine()`; `multiply` throws on the
zero residue and `toAffine` on an infinity result. -/
def ecMulPt (M : ECModel) (p : M.Pt) (scalar : Int) : Option M.Pt :=
  let r := scalar.emod secpN
  if r = 0 then none
  else if r • p = 0 then none else some (r • p)

/-- `ecAdd` on parsed points (`crypto.ts`): `p1.add(p2).toAffine()`. -/
def ecAddPt (M : ECModel) (a b : M.Pt) : Option M.Pt :=
  if a + b = 0 then none else some (a + b)

/-- `ecSub` on parsed points (`crypto.ts`): `pA.subtract(pB).toAffine()`. -/
def ecSubPt (M : ECModel) (a b : M.Pt) : Option M.Pt :=
  if a - b = 0 then none else some (a - b)

/-- `ecMul` on raw coordinates: `fromAffine` then multiply. -/
def ecMulRaw (M : ECModel) (c : Int × Int) (scalar : Int) : Option (Int × Int) := do
  let p ← M.toPt c
  let q ← ecMulPt M p scalar
  some (M.coords q)

/-- `ecAdd` on raw coordinates. -/
def ecAddRaw (M : ECModel) (a b : Int × Int) : Option (Int × Int) := do
  let pa ← M.toPt a
  let pb ← M.toPt b
  let q ← ecAddPt M pa pb
  some (M.coords q)

/-- `ecSub` on raw coordinates. -/
def ecSubRaw (M : ECModel) (a b : Int × Int) : Option (Int × Int) := do
  let pa ← M.toPt a
  let pb ← M.toPt b
  let q ← ecSubPt M pa pb
  some (M.coords q)

/-- `ecAddress` (`crypto.ts`): last 20 bytes of
`keccak256(uint256_be(x) ‖ uint256_be(y))`, embedded as the byte list
(the source formats it as a hex string; `encodeAddress` parses it back to
these bytes). -/
def ecAddressB (M : ECModel) (c : Int × Int) : List Int :=
  takeLast20 (M.keccak (encodeU256 c.1 ++ encodeU256 c.2))

/-- The base point is not the point at infinity. -/
theorem ECModel.G_ne_zero (M : ECModel) : M.G ≠ 0 := by
  have h := M.G_ord 1 (by norm_num) (by norm_num [secpN, secpNn])
  simpa using h

/-- Scalars act modulo `N`: congruent integer scalars act identically. -/
theorem ECModel.smul_congr (M : ECModel) (p : M.Pt) {a b : Int}
    (h : a.emod secpN = b.emod secpN) : a • p = b • p := by
  have hd : (secpN : Int) ∣ b - a := Int.ModEq.dvd (show Int.ModEq secpN a b from h)
  rcases hd with ⟨k, hk⟩
  have hb : b = a + secpN * k := by omega
  rw [hb, add_smul, mul_smul, M.smul_N, add_zero]

/-- Reduction of the scalar: `a • p = (a mod N) • p`. -/
theorem ECModel.smul_emod (M : ECModel) (p : M.Pt) (a : Int) :
    (a.emod secpN) • p = a • p :=
  M.smul_congr p (Int.emod_emod_of_dvd a dvd_rfl)

/-- Multiples of `G` vanish exactly for scalars divisible by `N`. -/
theorem ECModel.smul_G_ne_zero (M : ECModel) {a : Int}
    (h : a.emod secpN ≠ 0) : a • M.G ≠ 0 := by
  have hlt : a.emod secpN < secpN := Int.emod_lt_of_pos a (by norm_num [secpN, secpNn])
  have hle : 0 ≤ a.emod secpN := Int.emod_nonneg a (by norm_num [secpN, secpNn])
  have := M.G_ord (a.emod secpN) (lt_of_le_of_ne hle (Ne.symm h)) hlt
  rw [M.smul_emod] at this
  exact this

/-! ### The DLEQ proof object and the verifier (`src/lib/verifier.ts`) -/

/-- `DLEQProof`: five affine points (as raw coordinate pairs, exactly as
they arrive at the verifier) and two scalars. -/
structure RawProof where
  C : Int × Int
  W : Int × Int
  P : Int × Int
  A1 : Int × Int
  A2 : Int × Int
  x : Int
  z : Int
deriving DecidableEq

/-- The ten coordinates range-checked by `verifyProof` (in source order). -/
def coordsList (pf : RawProof) : List Int :=
  [pf.C.1, pf.C.2, pf.W.1, pf.W.2, pf.P.1, pf.P.2,
   pf.A1.1, pf.A1.2, pf.A2.1, pf.A2.2]

/-- `coords.some(c => c >= P || c < 0n)` of `verifyProof`. -/
def coordsBad (pf : RawProof) : Bool :=
  (coordsList pf).any (fun c => decide (secpP ≤ c) || decide (c < 0))

/-- `verifyProof` (`verifier.ts`).  `some b` is a returned boolean,
`none` a thrown exception (an intermediate elliptic-curve operation whose
affine result would be the point at infinity, or a zero scalar reaching
`multiply`). -/
def verifyProof (M : ECModel) (pf : RawProof) : Option Bool :=
  if pf.x = 0 ∨ secpN ≤ pf.x then some false
  else if pf.z = 0 ∨ secpN ≤ pf.z then some false
  else if coordsBad pf then some false
  else
    match M.toPt pf.C, M.toPt pf.W, M.toPt pf.P, M.toPt pf.A1, M.toPt pf.A2 with
    | some Cpt, some Wpt, some Ppt, some _, some _ =>
      let A1addr := ecAddressB M pf.A1
      let A2addr := ecAddressB M pf.A2
      let parity := parityOf pf.C.2 pf.W.2
      let e := buildChallenge M.keccak pf.C.1 pf.W.1 pf.P.1 pf.P.2
        A1addr A2addr pf.x parity
      do
        let zG ← ecMulPt M M.G pf.z
        let eW ← ecMulPt M Wpt e
        let A1c ← ecSubPt M zG eW
        if M.coords A1c ≠ pf.A1 then some false
        else do
          let X ← ecMulPt M M.G pf.x
          let T ← ecSubPt M Ppt X
          let zT ← ecMulPt M T pf.z
          let eC ← ecMulPt M Cpt e
          let A2c ← ecSubPt M zT eC
          if M.coords A2c ≠ pf.A2 then some false else some true
    | _, _, _, _, _ => some false

/-! ### The single prover (`src/lib/cheat_prover.ts`)

`generateProof` draws one random nonce (`randomScalar()`, uniform in
`[1, N)`); the nonce is taken as the explicit argument `k`. -/

/-- All intermediate values of a successful `generateProof` run, recorded
so that theorems can refer to the derived challenge and response. -/
structure ProverTrace (M : ECModel) where
  ps : Int
  w : Int
  e : Int
  z : Int
  Cpt : M.Pt
  Wpt : M.Pt
  Ppt : M.Pt
  A1pt : M.Pt
  Tpt : M.Pt
  A2pt : M.Pt
  proof : RawProof

/-- `generateProof` (`cheat_prover.ts`), instrumented to return the full
trace.  Statement order follows the source: the `p(x) = 0` check, then
`ps`, `C`, the inverse of `s - x`, `w`, `W`, `P`, the Schnorr
commitments, the challenge and the response. -/
def proverRun (M : ECModel) (x : Int) (p : List Int) (s k : Int) :
    Option (ProverTrace M) :=
  let p_norm := pnorm p
  if evalPolyF p_norm x ≠ 0 then none else do
    let ps := evalPolyF p_norm s
    let Cpt ← ecMulPt M M.G ps
    let sxInv ← invMod ((s - x).emod secpN) secpN
    let w := (ps * sxInv).emod secpN
    let Wpt ← ecMulPt M M.G w
    let Ppt ← ecMulPt M M.G s
    let A1pt ← ecMulPt M M.G k
    let Xpt ← ecMulPt M M.G x
    let Tpt ← ecSubPt M Ppt Xpt
    let A2pt ← ecMulPt M Tpt k
    let A1addr := ecAddressB M (M.coords A1pt)
    let A2addr := ecAddressB M (M.coords A2pt)
    let parity := parityOf (M.coords Cpt).2 (M.coords Wpt).2
    let e := buildChallenge M.keccak (M.coords Cpt).1 (M.coords Wpt).1
      (M.coords Ppt).1 (M.coords Ppt).2 A1addr A2addr x parity
    let z := (k + (e * w).emod secpN).emod secpN
    some { ps := ps, w := w, e := e, z := z,
           Cpt := Cpt, Wpt := Wpt, Ppt := Ppt, A1pt := A1pt,
           Tpt := Tpt, A2pt := A2pt,
           proof := { C := M.coords Cpt, W := M.coords Wpt,
                      P := M.coords Ppt, A1 := M.coords A1pt,
                      A2 := M.coords A2pt, x := x, z := z } }

/-- `generateProof` (`cheat_prover.ts`): the emitted `DLEQProof`. -/
def generateProof (M : ECModel) (x : Int) (p : List Int) (s k : Int) :
    Option RawProof :=
  (proverRun M x p s k).map (fun tr => tr.proof)

/-! ### The SRS prover (`src/lib/srs_prover.ts`) -/

/-- Iteration of `generateSRS`: repeatedly multiply the current entry by
`s`, collecting `s·G, s²·G, …`. -/
def srsGo (M : ECModel) (s : Int) : Nat → (Int × Int) → Option (List (Int × Int))
  | 0, _ => some []
  | n + 1, cur => do
    let nxt ← ecMulRaw M cur s
    let rest ← srsGo M s n nxt
    some (nxt :: rest)

/-- `generateSRS` (`srs_prover.ts`): `[G, s·G, …, s^maxDegree·G]`; throws
on a secret that is zero mod `N`.  (The `maxDegree < 0` guard is
subsumed by taking `maxDegree : Nat`.) -/
def generateSRS (M : ECModel) (secret : Int) (maxDegree : Nat) :
    Option (List (Int × Int)) :=
  let s := secret.emod secpN
  if s = 0 then none
  else do
    let rest ← srsGo M s maxDegree (M.coords M.G)
    some (M.coords M.G :: rest)

/-- `commitPolynomial` (`srs_prover.ts`): `Σ cᵢ·srs[i]` skipping zero
coefficients; `[0n, 0n]` for an empty coefficient list, a throw for a
too-long polynomial or an all-zero one (inner `Option` is the nullable
`accPoint`, outer `Option` the exception). -/
def commitPolynomial (M : ECModel) (coefficients : List Int)
    (srs : List (Int × Int)) : Option (Int × Int) :=
  if coefficients.length = 0 then some (0, 0)
  else if srs.length < coefficients.length then none
  else do
    let acc ← (coefficients.zip srs).foldlM
      (fun (acc : Option (Int × Int)) (cs : Int × (Int × Int)) => do
        let coeff := cs.1.emod secpN
        if coeff = 0 then some acc
        else do
          let pxy ← ecMulRaw M cs.2 coeff
          match acc with
          | none => some (some pxy)
          | some a => do
            let r ← ecAddRaw M a pxy
            some (some r))
      none
    match acc with
    | none => none
    | some a => some a

/-- The output record of `generateProofUsingSRS` (the on-chain calldata
shape of `types/index.ts`). -/
structure SRSProofOut where
  Cx : Int
  Wx : Int
  Px : Int
  Py : Int
  x : Int
  Xx : Int
  Xy : Int
  A1x : Int
  A1y : Int
  A1addr : List Int
  zTx : Int
  zTy : Int
  eCx : Int
  eCy : Int
  A2addr : List Int
  Hinv : Int
  Hinv2 : Int
  z : Int
  parity : Int
deriving DecidableEq

/-- `generateProofUsingSRS` (`srs_prover.ts`).  The random nonce
(`randomScalar()`) is the explicit argument `k`.  The inline
challenge-packing loop of the source writes byte-for-byte the same
string as `buildChallenge`, which is therefore reused here. -/
def generateProofUsingSRS (M : ECModel) (x : Int) (polynomial : List Int)
    (secret : Int) (srs : List (Int × Int)) (k : Int) : Option SRSProofOut :=
  if polynomial.length = 0 then none
  else if srs.length < polynomial.length then none
  else
    let xNorm := x.emod secpN
    if xNorm = 0 then none
    else
      let coeffs := pnorm polynomial
      if evalPolyF coeffs xNorm ≠ 0 then none
      else do
        let C ← commitPolynomial M coeffs srs
        let b := synB xNorm coeffs
        if b.headD 0 ≠ 0 then none
        else do
          let qCoeffs := b.tail
          let W ← commitPolynomial M qCoeffs srs
          if srs.length < 2 then none
          else do
            let Pp := srs.getD 1 (0, 0)
            let X ← ecMulRaw M (M.coords M.G) xNorm
            let T ← ecSubRaw M Pp X
            let A1 ← ecMulRaw M (M.coords M.G) k
            let A1addr := ecAddressB M A1
            let A2 ← ecMulRaw M T k
            let A2addr := ecAddressB M A2
            let parity := parityOf C.2 W.2
            let e := buildChallenge M.keccak C.1 W.1 Pp.1 Pp.2
              A1addr A2addr xNorm parity
            let s := secret.emod secpN
            let w := (qCoeffs.foldl
              (fun (acc : Int × Int) qc =>
                ((acc.1 + (qc * acc.2).emod secpN).emod secpN,
                 (acc.2 * s).emod secpN))
              (0, 1)).1
            let z := (k + (e * w).emod secpN).emod secpN
            let zT ← ecMulRaw M T z
            let eC ← ecMulRaw M C e
            let Hinv ← invMod ((Pp.1 - X.1).emod secpP) secpP
            let Hinv2 ← invMod ((zT.1 - eC.1).emod secpP) secpP
            some { Cx := C.1, Wx := W.1, Px := Pp.1, Py := Pp.2, x := xNorm,
                   Xx := X.1, Xy := X.2, A1x := A1.1, A1y := A1.2,
                   A1addr := A1addr, zTx := zT.1, zTy := zT.2,
                   eCx := eC.1, eCy := eC.2, A2addr := A2addr,
                   Hinv := Hinv, Hinv2 := Hinv2, z := z, parity := parity }

/-! ### The threshold prover (`src/lib/prover.ts`) -/

/-- `PolyEvalProof`: a node's Round-1 broadcast message. -/
structure PolyMsg where
  Ci : Int × Int
  Wi : Int × Int
  A1i : Int × Int
  A2i : Int × Int
deriving DecidableEq

/-- `PolyEvalProofState`: a node's secret Round-1 state. -/
structure PolyState where
  k : Int
  wi : Int
deriving DecidableEq

/-- `PolyEvalRound2`: a node's Round-2 output. -/
structure PolyRound2 where
  x : Int
  P : Int × Int
  C : Int × Int
  W : Int × Int
  A1 : Int × Int
  A2 : Int × Int
  e : Int
  z : Int
deriving DecidableEq

/-- `PolyEvalProofStart`: the request sent to every node. -/
structure PolyEvalProofStart where
  x : Int
  p : List Int
  srsShare : List Int
  P : Int × Int

/-- The `sumPoints` helper of `proverRespond` / `proverVoleFinalize`:
left fold of `ecAdd` starting from the first point. -/
def sumPoints (M : ECModel) (pts : List (Int × Int)) : Option (Int × Int) :=
  match pts with
  | [] => none
  | p :: rest => rest.foldlM (ecAddRaw M) p

/-- `proverStart` (`prover.ts`): a node's Round-1 share.  Deterministic —
the nonce comes from `deterministicNonce`, not from the CSPRNG. -/
def proverStart (M : ECModel) (message : PolyEvalProofStart) :
    Option (PolyMsg × PolyState) :=
  if (message.srsShare.length : Int) - 1 < (message.p.length : Int) - 1 then none
  else do
    let srsTrunc := message.srsShare.take message.p.length
    let psShare := combineVectors message.p srsTrunc
    let qVec := divPolysLin message.p message.x
    let wi := combineVectors qVec (message.srsShare.take qVec.length)
    let Ci ← ecMulRaw M (M.coords M.G) psShare
    let Wi ← ecMulRaw M (M.coords M.G) wi
    let k := deterministicNonce M.keccak wi
      [message.x, message.P.1, message.P.2, Ci.1, Wi.1]
    let A1i ← ecMulRaw M (M.coords M.G) k
    let X ← ecMulRaw M (M.coords M.G) message.x
    let T ← ecSubRaw M message.P X
    let A2i ← ecMulRaw M T k
    some ({ Ci := Ci, Wi := Wi, A1i := A1i, A2i := A2i }, { k := k, wi := wi })

/-- `proverRespond` (`prover.ts`): aggregate the Round-1 shares, rebuild
the challenge, and answer `z = k + e·wᵢ (mod N)`. -/
def proverRespond (M : ECModel) (shares : List PolyMsg) (x : Int)
    (P : Int × Int) (state : PolyState) : Option PolyRound2 :=
  if shares.length = 0 then none
  else do
    let C ← sumPoints M (shares.map (fun s => s.Ci))
    let W ← sumPoints M (shares.map (fun s => s.Wi))
    let A1 ← sumPoints M (shares.map (fun s => s.A1i))
    let A2 ← sumPoints M (shares.map (fun s => s.A2i))
    let A1addr := ecAddressB M A1
    let A2addr := ecAddressB M A2
    let parity := parityOf C.2 W.2
    let e := buildChallenge M.keccak C.1 W.1 P.1 P.2 A1addr A2addr x parity
    let z := fAdd state.k (fMul e state.wi)
    some { x := x, P := P, C := C, W := W, A1 := A1, A2 := A2, e := e, z := z }

/-- `proverFinalize` (`prover.ts`): sum the `zᵢ` shares
(`combineVectors` against the all-ones vector) and emit the proof with
the first node's context. -/
def proverFinalize (message : List PolyRound2) : Option RawProof :=
  match message with
  | [] => none
  | ctx :: _ =>
    let z := combineVectors (message.map (fun r => r.z))
      (List.replicate message.length 1)
    some { C := ctx.C, W := ctx.W, P := ctx.P, A1 := ctx.A1, A2 := ctx.A2,
           x := ctx.x, z := z }

/-- The two-round interactive pipeline as exercised by the tests: every
node runs `proverRespond` on the same share list, and the aggregator
finalizes. -/
def interactiveProve (M : ECModel) (msgs : List PolyMsg) (x : Int)
    (P : Int × Int) (sts : List PolyState) : Option RawProof := do
  let r2 ← sts.mapM (proverRespond M msgs x P)
  proverFinalize r2

/-! ### The VOLE-masked prover (`src/lib/prover_vole.ts`) -/

/-- `PolyEvalVoleShare`: a node's single message. -/
structure VoleShare where
  Ci : Int × Int
  Wi : Int × Int
  A1i : Int × Int
  A2i : Int × Int
  deltaW : Int
  deltaK : Int
  oleIndex : Nat
deriving DecidableEq

/-- `ROLEReceiverOLE` (`role.ts`): the aggregator's view of one OLE
sample. -/
structure RecvOLE where
  index : Nat
  x : Int
  y : Int
deriving DecidableEq

/-- `proverVoleFinalize` (`prover_vole.ts`).  All its guards throw
(`none`): empty share list, length mismatch, duplicate OLE index while
building the lookup map, out-of-range `x`, coordinate or curve check
failure, a missing OLE sample, an OLE input differing from the
challenge, and a zero aggregated response. -/
def proverVoleFinalize (M : ECModel) (shares : List VoleShare)
    (oleSamples : List RecvOLE) (x : Int) (P : Int × Int) : Option RawProof :=
  if shares.length = 0 then none
  else if oleSamples.length ≠ shares.length then none
  else if ¬ (oleSamples.map (fun o => o.index)).Nodup then none
  else do
    let C ← sumPoints M (shares.map (fun s => s.Ci))
    let W ← sumPoints M (shares.map (fun s => s.Wi))
    let A1 ← sumPoints M (shares.map (fun s => s.A1i))
    let A2 ← sumPoints M (shares.map (fun s => s.A2i))
    if x = 0 ∨ secpN ≤ x then none
    else
      let cs := [C.1, C.2, W.1, W.2, P.1, P.2, A1.1, A1.2, A2.1, A2.2]
      if cs.any (fun c => decide (secpP ≤ c) || decide (c < 0)) then none
      else
        match M.toPt C, M.toPt W, M.toPt P, M.toPt A1, M.toPt A2 with
        | some _, some _, some _, some _, some _ => do
          let A1addr := ecAddressB M A1
          let A2addr := ecAddressB M A2
          let parity := parityOf C.2 W.2
          let e := buildChallenge M.keccak C.1 W.1 P.1 P.2 A1addr A2addr x parity
          let z ← shares.foldlM
            (fun (z : Int) share =>
              match oleSamples.find? (fun o => o.index = share.oleIndex) with
              | none => none
              | some ole =>
                if ole.x ≠ e then none
                else some (fAdd z (fAdd ole.y
                  (fAdd (fMul e share.deltaW) share.deltaK))))
            0
          if z = 0 ∨ secpN ≤ z then none
          else some { C := C, W := W, P := P, A1 := A1, A2 := A2,
                      x := x, z := z }
        | _, _, _, _, _ => none

/-! ### Bit containers (`src/lib/bits.ts`), Beaver transform
(`src/lib/beaver.ts`) and ROLE round 2 (`src/lib/role.ts`)

This layer is byte-oriented; bytes are `Nat` here and scalars live in
`[0, N)` as naturals.  `hash` abstracts Keccak-256 (`crypto.ts` `hash`,
re-exported `keccak_256`) and `hkdf` abstracts `hkdfKeccak`. -/

/-- `BitVector` (`bits.ts`): dense packed bits, bit `i` stored at
`data[i >> 3]`, position `i & 7`. -/
structure BV where
  len : Nat
  data : List Nat
deriving DecidableEq

/-- `BitVector.get`: `(data[i >> 3] >> (i & 7)) & 1 != 0` — a `Bool`. -/
def BV.get (bv : BV) (i : Nat) : Bool :=
  ((bv.data.getD (i / 8) 0) >>> (i % 8)) &&& 1 ≠ 0

/-- Pack a list of bits into bytes, least-significant bit first per byte
(the effect of `BitVector.set` on a zero-initialised buffer). -/
def packBitsLE (bits : List Bool) : List Nat :=
  (List.range ((bits.length + 7) / 8)).map (fun j =>
    (List.range 8).foldl
      (fun acc t => acc + (if bits.getD (8 * j + t) false then 2 ^ t else 0)) 0)

/-- `BitMatrix` (`bits.ts`): row-major packed bits. -/
structure BM where
  rows : Nat
  cols : Nat
  data : List Nat
deriving DecidableEq

/-- `BitMatrix.get`: bit `row*cols + col` of the backing store. -/
def BM.get (m : BM) (r c : Nat) : Bool :=
  ((m.data.getD ((r * m.cols + c) / 8) 0) >>> ((r * m.cols + c) % 8)) &&& 1 ≠ 0

/-- `BitMatrix.row`: copy of row `r` as a `BitVector` (a fresh buffer
with each bit `set` in turn). -/
def BM.row (m : BM) (r : Nat) : BV :=
  { len := m.cols, data := packBitsLE ((List.range m.cols).map (fun c => m.get r c)) }

/-- `encodeU32` (`bytes.ts`) on naturals: 4 bytes big-endian. -/
def encodeU32N (v : Nat) : List Nat :=
  (List.range 4).map (fun i => (v >>> (8 * (3 - i))) % 256)

/-- `BitMatrix.random(rows, cols, seed)` with a seed: backing bytes from
`hkdfKeccak(seed, ∅, uint32(rows) ‖ uint32(cols), ⌈rows·cols/8⌉)`. -/
def bmRandom (hkdf : List Nat → List Nat → List Nat → Nat → List Nat)
    (rows cols : Nat) (seed : List Nat) : BM :=
  { rows := rows, cols := cols,
    data := hkdf seed [] (encodeU32N rows ++ encodeU32N cols) ((rows * cols + 7) / 8) }

/-- `xorBytes` (`bits.ts`): throws on a length mismatch. -/
def xorBytesN (a b : List Nat) : Option (List Nat) :=
  if a.length ≠ b.length then none else some (a.zipWith (fun x y => x ^^^ y) b)

/-- `bytesToBigInt` on natural bytes (big-endian). -/
def bytesToNatBE (bs : List Nat) : Nat := bs.foldl (fun acc b => acc * 256 + b) 0

/-- `bigIntToBytes(v, 32)` on naturals. -/
def natToBytesBE32 (v : Nat) : List Nat :=
  (List.range 32).map (fun i => (v / 256 ^ (31 - i)) % 256)

/-- `scalarFromBits` (`bits.ts`): little-endian bit decomposition of a
slice, truncated to the available length, reduced mod `N`. -/
def scalarFromBits (choiceBits : BV) (offset bitLength : Nat) : Nat :=
  ((List.range (min bitLength (choiceBits.len - offset))).foldl
    (fun x j => if choiceBits.get (offset + j) then x + 2 ^ j else x) 0) % secpNn

/-- JavaScript strict equality `===` between a boolean and a number:
always `false`, since the operands have different types and `===` does
not coerce.  (`beaver.ts` line 88 compares the `Bool` result of
`choices.get(i)` against the number `0`.) -/
def strictEqBoolNum (_ : Bool) (_ : Nat) : Bool := false

/-- `beaverEncryptFromRandomOT` (`beaver.ts`): `ct_j = m_j ⊕ H(tag ‖ k_j)`
per OT, throwing on any length mismatch. -/
def beaverEncryptFromRandomOT (hash : List Nat → List Nat)
    (k0 k1 m0 m1 : List (List Nat)) (tag : List Nat) :
    Option (List (List Nat) × List (List Nat)) :=
  let n := k0.length
  if k1.length ≠ n ∨ m0.length ≠ n ∨ m1.length ≠ n then none
  else do
    let pairs ← (List.range n).mapM (fun i => do
      let m0i := m0.getD i []
      let m1i := m1.getD i []
      let mask0 := hash (tag ++ k0.getD i [])
      let mask1 := hash (tag ++ k1.getD i [])
      let c0i ← xorBytesN m0i mask0
      let c1i ← xorBytesN m1i mask1
      some (c0i, c1i))
    some (pairs.map (fun p => p.1), pairs.map (fun p => p.2))

/-- `beaverDecryptFromRandomOT` (`beaver.ts`): per OT, select a
ciphertext by `choice === 0 ? c0[i] : c1[i]` — where `choice` is the
`Bool` from `choices.get(i)`, so the strict comparison is always false
and `c1[i]` is always selected — and unmask with `H(tag ‖ keys[i])`. -/
def beaverDecryptFromRandomOT (hash : List Nat → List Nat)
    (choices : BV) (keys c0 c1 : List (List Nat)) (tag : List Nat) :
    Option (List (List Nat)) :=
  let n := choices.len
  if keys.length ≠ n ∨ c0.length ≠ n ∨ c1.length ≠ n then none
  else (List.range n).mapM (fun i =>
    let choice := choices.get i
    let key := keys.getD i []
    let ct := if strictEqBoolNum choice 0 then c0.getD i [] else c1.getD i []
    let mask := hash (tag ++ key)
    xorBytesN ct mask)

/-- UTF-8 bytes of `'role-ot'`. -/
def roleTag : List Nat := [114, 111, 108, 101, 45, 111, 116]

/-- UTF-8 bytes of `'role-a'`. -/
def roleATag : List Nat := [114, 111, 108, 101, 45, 97]

/-- `scalarFromSeed` (`role.ts`): `Keccak256(tag ‖ seed) mod N`. -/
def scalarFromSeed (hash : List Nat → List Nat) (tag seed : List Nat) : Nat :=
  bytesToNatBE (hash (tag ++ seed)) % secpNn

/-- `ROLESenderState`: the sender's pool `(aᵢ, bᵢ)`. -/
structure RoleSenderPool where
  nextIndex : Nat
  a : List Nat
  b : List Nat
deriving DecidableEq

/-- `ROLEReceiverState`: the receiver's pool `(xᵢ, yᵢ)`. -/
structure RoleReceiverPool where
  nextIndex : Nat
  x : List Nat
  y : List Nat
deriving DecidableEq

/-- `roleSenderRound2` (`role.ts`), taking the IKNP sender output
`(k0, k1)` as input: derives the per-OLE coefficients `aᵢ`, the PRG
masks `r_{i,j}` from the seeded `BitMatrix`, the offsets
`bᵢ = Σⱼ r_{i,j}`, the per-bit messages `(m0, m1) = (r, r + a·2^j)`,
and the Beaver ciphertexts. -/
def roleSenderRound2 (hash : List Nat → List Nat)
    (hkdf : List Nat → List Nat → List Nat → Nat → List Nat)
    (numOLEs bitLength : Nat) (k0 k1 : List (List Nat)) :
    Option (RoleSenderPool × (List (List Nat) × List (List Nat))) :=
  let totalOTs := numOLEs * bitLength
  if k0.length ≠ totalOTs ∨ k1.length ≠ totalOTs then none
  else
    let seedR := hash (roleTag ++ k0.getD 0 [] ++ k1.getD 0 [])
    let Rmat := bmRandom hkdf totalOTs 256 seedR
    let rOf := fun (t : Nat) => bytesToNatBE (Rmat.row t).data % secpNn
    let aArr := (List.range numOLEs).map (fun i =>
      scalarFromSeed hash roleATag (k0.getD (i * bitLength) [] ++ k1.getD (i * bitLength) []))
    let bArr := (List.range numOLEs).map (fun i =>
      (List.range bitLength).foldl (fun b j => (b + rOf (i * bitLength + j)) % secpNn) 0)
    let m0Arr := (List.range totalOTs).map (fun t => natToBytesBE32 (rOf t % secpNn))
    let m1Arr := (List.range totalOTs).map (fun t =>
      natToBytesBE32 ((rOf t + aArr.getD (t / bitLength) 0 * 2 ^ (t % bitLength)) % secpNn))
    do
      let cts ← beaverEncryptFromRandomOT hash k0 k1 m0Arr m1Arr roleTag
      some ({ nextIndex := 0, a := aArr, b := bArr }, cts)

/-- `roleReceiverRound2` (`role.ts`), taking the IKNP receiver output
(`choices`, `keys`) and the sender's ciphertexts: Beaver-decrypts the
per-bit field elements and aggregates `xᵢ` (bit decomposition) and
`yᵢ = Σⱼ m_{i,j} (mod N)`. -/
def roleReceiverRound2 (hash : List Nat → List Nat)
    (numOLEs bitLength : Nat) (choices : BV) (keys c0 c1 : List (List Nat)) :
    Option RoleReceiverPool :=
  let totalOTs := numOLEs * bitLength
  if choices.len ≠ totalOTs then none
  else if keys.length ≠ totalOTs then none
  else if c0.length ≠ totalOTs ∨ c1.length ≠ totalOTs then none
  else do
    let perOt ← beaverDecryptFromRandomOT hash choices keys c0 c1 roleTag
    let xArr := (List.range numOLEs).map (fun i =>
      scalarFromBits choices (i * bitLength) bitLength)
    let yArr := (List.range numOLEs).map (fun i =>
      (List.range bitLength).foldl
        (fun y j => (y + bytesToNatBE (perOt.getD (i * bitLength + j) []) % secpNn) % secpNn) 0)
    some { nextIndex := 0, x := xArr, y := yArr }

/-! ### An executable model of the curve layer

For concrete witnesses: the cyclic group of order `N` (the abstract
group generated by `G`), with a fast scalar action, a point `p`
represented by the affine pair `(p, 0)`, and a constant stand-in for
Keccak-256.  Every `ECModel` law is proved for it, so theorems proved
over an arbitrary model apply to it. -/

/-- Points of the executable model: elements of `ZMod N`. -/
structure FPt where
  val : ZMod secpNn
deriving DecidableEq

instance : NeZero secpNn := ⟨by decide⟩

theorem FPt.ext {a b : FPt} (h : a.val = b.val) : a = b := by
  cases a; cases b; cases h; rfl

instance : Zero FPt := ⟨⟨0⟩⟩

instance : Add FPt := ⟨fun a b => ⟨a.val + b.val⟩⟩

instance : Neg FPt := ⟨fun a => ⟨-a.val⟩⟩

instance : Sub FPt := ⟨fun a b => ⟨a.val - b.val⟩⟩

instance : SMul Nat FPt := ⟨fun n a => ⟨(n : ZMod secpNn) * a.val⟩⟩

instance : SMul Int FPt := ⟨fun n a => ⟨(n : ZMod secpNn) * a.val⟩⟩

instance : AddCommGroup FPt :=
  Function.Injective.addCommGroup FPt.val (fun _ _ h => FPt.ext h)
    rfl (fun _ _ => rfl) (fun _ => rfl) (fun _ _ => rfl)
    (fun x n => (nsmul_eq_mul n x.val).symm)
    (fun x n => (zsmul_eq_mul x.val n).symm)

theorem fake_cast_ne_zero {a : Int} (h1 : 1 ≤ a) (h2 : a < secpN) :
    (a : ZMod secpNn) ≠ 0 := by
  intro h0
  have hdvd : (secpNn : Int) ∣ a := (ZMod.intCast_zmod_eq_zero_iff_dvd a secpNn).mp h0
  have := Int.le_of_dvd (by omega) hdvd
  simp only [secpN] at h2
  omega

/-- `fromAffine` of the executable model: `(a, 0)` with `1 ≤ a < N`. -/
def fakeToPt (c : Int × Int) : Option FPt :=
  if c.2 = 0 ∧ 1 ≤ c.1 ∧ c.1 < secpN then some ⟨(c.1 : ZMod secpNn)⟩ else none

/-- `toAffine` of the executable model. -/
def fakeCoords (p : FPt) : Int × Int := ((p.val.val : Int), 0)

/-- Constant stand-in for Keccak-256 (any function of the right shape
satisfies the abstract model). -/
def fakeKeccak : List Int → List Int := fun _ => List.replicate 32 1

/-- The executable curve model. -/
def fakeECModel : ECModel where
  Pt := FPt
  G := ⟨1⟩
  keccak := fakeKeccak
  toPt := fakeToPt
  coords := fakeCoords
  smul_N := by
    intro p
    apply FPt.ext
    show ((secpN : Int) : ZMod secpNn) * p.val = (0 : ZMod secpNn)
    have h : ((secpN : Int) : ZMod secpNn) = 0 := by simp [secpN]
    rw [h, zero_mul]
  G_ord := by
    intro m h0 hN hc
    have hval : (m : ZMod secpNn) * (1 : ZMod secpNn) = 0 := congrArg FPt.val hc
    rw [mul_one] at hval
    exact fake_cast_ne_zero h0 hN hval
  toPt_some := by
    rintro ⟨cx, cy⟩ p h
    simp only [fakeToPt] at h
    by_cases hcond : cy = 0 ∧ 1 ≤ cx ∧ cx < secpN
    · rw [if_pos hcond] at h
      obtain ⟨h2, h1, hN⟩ := hcond
      obtain rfl : FPt.mk (cx : ZMod secpNn) = p := Option.some.inj h
      refine ⟨?_, ?_⟩
      · intro h0
        have hval : (cx : ZMod secpNn) = 0 := congrArg FPt.val h0
        exact fake_cast_ne_zero h1 hN hval
      · show ((((cx : ZMod secpNn)).val : Int), (0 : Int)) = (cx, cy)
        have hval : (((cx : ZMod secpNn)).val : Int) = cx % (secpNn : Int) :=
          ZMod.val_intCast cx
        rw [Int.emod_eq_of_lt (by omega) (by simpa [secpN] using hN)] at hval
        rw [hval, h2]
    · rw [if_neg hcond] at h
      cases h
  toPt_coords := by
    intro p hp
    have hv0 : p.val ≠ 0 := by
      intro h
      exact hp (FPt.ext h)
    have hvpos : p.val.val ≠ 0 := fun h => hv0 ((ZMod.val_eq_zero p.val).mp h)
    have hvlt : p.val.val < secpNn := ZMod.val_lt p.val
    show fakeToPt ((p.val.val : Int), 0) = some p
    rw [fakeToPt, if_pos]
    · have hback : (((p.val.val : Int)) : ZMod secpNn) = p.val := by
        rw [Int.cast_natCast]
        exact ZMod.natCast_rightInverse p.val
      rw [hback]
    · refine ⟨rfl, by omega, ?_⟩
      show ((p.val.val : Nat) : Int) < (secpNn : Int)
      omega
  coords_range := by
    intro p _
    have hvlt : p.val.val < secpNn := ZMod.val_lt p.val
    have hNP : secpNn < secpPn := by decide
    refine ⟨?_, ?_, ?_, ?_⟩
    · show (0 : Int) ≤ ((p.val.val : Nat) : Int)
      omega
    · show ((p.val.val : Nat) : Int) < (secpPn : Int)
      omega
    · show (0 : Int) ≤ (0 : Int)
      omega
    · show (0 : Int) < (secpPn : Int)
      have : 0 < secpPn := by decide
      omega

/-! ### Supporting lemmas -/

theorem secpN_pos : (0 : Int) < secpN := by
  have : 0 < secpNn := by decide
  simp only [secpN]
  omega

theorem egcd_spec : ∀ (fuel a b : Nat), b ≤ fuel →
    (egcd fuel a b).1 = Nat.gcd a b ∧
    ((egcd fuel a b).2.1 * a + (egcd fuel a b).2.2 * b : Int) = (Nat.gcd a b : Int) := by
  intro fuel
  induction fuel with
  | zero =>
    intro a b hb
    have hb0 : b = 0 := by omega
    subst hb0
    simp [egcd]
  | succ fuel ih =>
    intro a b hb
    by_cases h0 : b = 0
    · subst h0
      simp [egcd]
    · have hlt : a % b < b := Nat.mod_lt a (by omega)
      obtain ⟨hg, hbez⟩ := ih b (a % b) (by omega)
      simp only [egcd, if_neg h0]
      have hgcd : Nat.gcd b (a % b) = Nat.gcd a b := by
        rw [Nat.gcd_comm a b, Nat.gcd_rec b a]
        exact (Nat.gcd_comm _ _).symm.trans (by rw [Nat.gcd_comm])
      constructor
      · rw [hg, hgcd]
      · have hdm : ((b : Int)) * ((a / b : Nat) : Int) + ((a % b : Nat) : Int) = (a : Int) := by
          exact_mod_cast Nat.div_add_mod a b
        rw [hgcd] at hbez
        push_cast at hbez hdm ⊢
        linear_combination hbez - (egcd fuel b (a % b)).2.2 * hdm

theorem invMod_spec {a m i : Int} (hm : 1 < m) (h : invMod a m = some i) :
    (a.emod m * i).emod m = 1 := by
  simp only [invMod] at h
  rw [if_neg (by omega)] at h
  by_cases hg : (egcd (m.toNat + 1) (a.emod m).toNat m.toNat).1 = 1
  · rw [if_pos hg] at h
    obtain rfl : (egcd (m.toNat + 1) (a.emod m).toNat m.toNat).2.1.emod m = i :=
      Option.some.inj h
    obtain ⟨hgcd, hbez⟩ :=
      egcd_spec (m.toNat + 1) (a.emod m).toNat m.toNat (by omega)
    rw [hgcd] at hg
    rw [hg] at hbez
    set s := (egcd (m.toNat + 1) (a.emod m).toNat m.toNat).2.1 with hs
    set t := (egcd (m.toNat + 1) (a.emod m).toNat m.toNat).2.2 with ht
    have hcast1 : (((a.emod m).toNat : Nat) : Int) = a.emod m :=
      Int.toNat_of_nonneg (Int.emod_nonneg a (by omega))
    have hcast2 : ((m.toNat : Nat) : Int) = m := Int.toNat_of_nonneg (by omega)
    rw [hcast1, hcast2] at hbez
    push_cast at hbez
    have h1 : Int.ModEq m (a.emod m * (s.emod m)) (a.emod m * s) :=
      Int.ModEq.mul_left _ (Int.emod_emod_of_dvd s dvd_rfl)
    have h2 : Int.ModEq m (a.emod m * s) 1 := by
      rw [Int.modEq_iff_dvd]
      refine ⟨t, by linarith⟩
    have h3 := h1.trans h2
    have := h3
    unfold Int.ModEq at this
    rw [Int.emod_eq_of_lt (by omega) hm] at this
    exact this
  · rw [if_neg hg] at h
    cases h

theorem ecMulPt_some {M : ECModel} {p q : M.Pt} {k : Int}
    (h : ecMulPt M p k = some q) :
    q = (k.emod secpN) • p ∧ k.emod secpN ≠ 0 ∧ q ≠ 0 := by
  simp only [ecMulPt] at h
  by_cases h1 : k.emod secpN = 0
  · rw [if_pos h1] at h
    cases h
  · rw [if_neg h1] at h
    by_cases h2 : (k.emod secpN) • p = 0
    · rw [if_pos h2] at h
      cases h
    · rw [if_neg h2] at h
      have hq := Option.some.inj h
      subst hq
      exact ⟨rfl, h1, h2⟩

theorem ecMulPt_eq {M : ECModel} (p : M.Pt) (k : Int)
    (h1 : k.emod secpN ≠ 0) (h2 : (k.emod secpN) • p ≠ 0) :
    ecMulPt M p k = some ((k.emod secpN) • p) := by
  simp only [ecMulPt]
  rw [if_neg h1, if_neg h2]

theorem ecSubPt_some {M : ECModel} {p q r : M.Pt}
    (h : ecSubPt M p q = some r) : r = p - q ∧ r ≠ 0 := by
  simp only [ecSubPt] at h
  by_cases h1 : p - q = 0
  · rw [if_pos h1] at h
    cases h
  · rw [if_neg h1] at h
    have hq := Option.some.inj h
    subst hq
    exact ⟨rfl, h1⟩

theorem ecSubPt_eq {M : ECModel} (p q : M.Pt) (h1 : p - q ≠ 0) :
    ecSubPt M p q = some (p - q) := by
  simp only [ecSubPt]
  rw [if_neg h1]

/-! ### Claim C2 — Fiat–Shamir challenge exactness -/

theorem encodeU256_eq_specBE (v : Int) : encodeU256 v = specBE 32 v := by
  simp only [encodeU256, specBE]
  refine List.map_congr_left ?_
  intro i _
  rw [Int.fdiv_eq_ediv _ (by positivity)]

theorem specBE_length (w : Nat) (v : Int) : (specBE w v).length = w := by
  simp [specBE]

/-- C2: `buildChallenge(Cx, Wx, Px, Py, A1addr, A2addr, x, parity)` is
exactly Keccak-256 of the 202-byte string
`0x01 ‖ uint256_be(Cx) ‖ uint256_be(Wx) ‖ uint256_be(Px) ‖
uint256_be(Py) ‖ bytes20(A1addr) ‖ bytes20(A2addr) ‖ uint256_be(x) ‖
uint8(parity)` reduced mod `N` — for every Keccak function, hence a
deterministic function of those eight values. -/
theorem c2_challenge_exact (keccak : List Int → List Int)
    (Cx Wx Px Py x parity : Int) (A1addr A2addr : List Int)
    (hA1 : A1addr.length = 20) (hA2 : A2addr.length = 20)
    (hpar0 : 0 ≤ parity) (hpar1 : parity < 256) :
    buildChallenge keccak Cx Wx Px Py A1addr A2addr x parity =
      (bytesToIntBE (keccak
        (specChallengePacking Cx Wx Px Py A1addr A2addr x parity))).emod secpN ∧
    (specChallengePacking Cx Wx Px Py A1addr A2addr x parity).length = 202 := by
  have haddr1 : encodeAddressB A1addr = A1addr := by
    simp [encodeAddressB, hA1, List.take_of_length_le (le_of_eq hA1)]
  have haddr2 : encodeAddressB A2addr = A2addr := by
    simp [encodeAddressB, hA2, List.take_of_length_le (le_of_eq hA2)]
  have hpack : (encodeU8 0x01 ++ encodeU256 Cx ++ encodeU256 Wx ++ encodeU256 Px ++
      encodeU256 Py ++ encodeAddressB A1addr ++ encodeAddressB A2addr ++
      encodeU256 x ++ encodeU8 parity)
      = specChallengePacking Cx Wx Px Py A1addr A2addr x parity := by
    simp only [specChallengePacking, encodeU256_eq_specBE, haddr1, haddr2, encodeU8]
    have h1 : (0x01 : Int).emod 256 = 0x01 := by decide
    have hp : parity.emod 256 = parity := Int.emod_eq_of_lt hpar0 hpar1
    rw [h1, hp]
  constructor
  · simp only [buildChallenge]
    rw [hpack]
  · simp [specChallengePacking, specBE_length, hA1, hA2]

/-- Witness for C2 at concrete inputs. -/
theorem c2_challenge_exact_witness :
    buildChallenge fakeKeccak 1 2 3 4
        (List.replicate 20 7) (List.replicate 20 9) 5 3 =
      (bytesToIntBE (fakeKeccak
        (specChallengePacking 1 2 3 4
          (List.replicate 20 7) (List.replicate 20 9) 5 3))).emod secpN ∧
    (specChallengePacking 1 2 3 4
        (List.replicate 20 7) (List.replicate 20 9) 5 3).length = 202 :=
  c2_challenge_exact fakeKeccak 1 2 3 4 5 3
    (List.replicate 20 7) (List.replicate 20 9)
    (by decide) (by decide) (by decide) (by decide)

/-! ### Claim C6 — synthetic division -/

/-- Cast compatibility: reducing mod `N` does not change the value in
`ZMod N`. -/
theorem cast_emodN (a : Int) :
    (((a.emod secpN) : Int) : ZMod secpNn) = (a : ZMod secpNn) := by
  rw [ZMod.intCast_eq_intCast_iff']
  exact Int.emod_emod_of_dvd a dvd_rfl

/-- Add a constant to the lowest coefficient of a polynomial. -/
def headAdd (c : Int) : List Int → List Int
  | [] => [c]
  | a :: as => (c + a) :: as

/-- The coefficient list of `(X - x) · q(X)` for ascending-coefficient
`q` (the product named by the specification, §8):
`(X - x)(q₀ + X·R) = (-x·q₀) + X·(q₀ + (X - x)·R)`. -/
def linMul (x : Int) : List Int → List Int
  | [] => []
  | q0 :: qs => (-x * q0) :: headAdd q0 (linMul x qs)

theorem headAdd_getD_zero (c : Int) (L : List Int) :
    (headAdd c L).getD 0 0 = c + L.getD 0 0 := by
  cases L <;> simp [headAdd]

theorem headAdd_getD_succ (c : Int) (L : List Int) (i : Nat) :
    (headAdd c L).getD (i + 1) 0 = L.getD (i + 1) 0 := by
  cases L <;> simp [headAdd]

theorem synB_length (x : Int) : ∀ p : List Int, (synB x p).length = p.length
  | [] => rfl
  | [_] => rfl
  | c :: c2 :: rest => by
    have ih := synB_length x (c2 :: rest)
    simp only [synB]
    cases hs : synB x (c2 :: rest) with
    | nil => rw [hs] at ih; simp at ih
    | cons b1 bs =>
      rw [hs] at ih
      simp only [List.length_cons] at ih ⊢
      omega

/-- The head of the synthetic-division array is Horner evaluation of the
polynomial at `x`, mod `N`. -/
theorem synB_head (x : Int) : ∀ p : List Int,
    (((synB x p).headD 0 : Int) : ZMod secpNn)
      = ((p.foldr (fun c acc => c + x * acc) 0 : Int) : ZMod secpNn)
  | [] => by simp [synB]
  | [c] => by
    simp [synB]
  | c :: c2 :: rest => by
    have ih := synB_head x (c2 :: rest)
    simp only [synB]
    cases hs : synB x (c2 :: rest) with
    | nil =>
      have hlen := synB_length x (c2 :: rest)
      rw [hs] at hlen
      simp at hlen
    | cons b1 bs =>
      rw [hs] at ih
      simp only [List.headD_cons, List.foldr_cons] at ih ⊢
      rw [cast_emodN]
      push_cast
      rw [cast_emodN]
      push_cast
      rw [ih]
      push_cast
      ring

/-- Synthetic-division identity, coefficient-wise in `ZMod N`:
`(X - x) · q` agrees with `p` except for the constant coefficient, which
differs by the remainder `b₀`. -/
theorem synB_linMul (x : Int) : ∀ (p : List Int) (i : Nat),
    (((linMul x ((synB x p).tail)).getD i 0 : Int) : ZMod secpNn)
      = ((p.getD i 0 : Int) : ZMod secpNn)
        - (if i = 0 then (((synB x p).headD 0 : Int) : ZMod secpNn) else 0)
  | [], i => by cases i <;> simp [synB, linMul]
  | [c], i => by cases i <;> simp [synB, linMul]
  | c :: c2 :: rest, i => by
    have ih := synB_linMul x (c2 :: rest)
    simp only [synB]
    cases hs : synB x (c2 :: rest) with
    | nil =>
      have hlen := synB_length x (c2 :: rest)
      rw [hs] at hlen
      simp at hlen
    | cons b1 bs =>
      rw [hs] at ih
      simp only [List.tail_cons] at ih ⊢
      cases i with
      | zero =>
        simp only [linMul, List.getD_cons_zero, List.getD_cons_succ,
          List.headD_cons, if_pos]
        rw [cast_emodN]
        push_cast
        rw [cast_emodN]
        push_cast
        ring
      | succ i =>
        simp only [linMul, List.getD_cons_succ]
        have hha : ((headAdd b1 (linMul x bs)).getD i 0 : ZMod secpNn)
            = (((c2 :: rest).getD i 0 : Int) : ZMod secpNn) := by
          cases i with
          | zero =>
            rw [headAdd_getD_zero]
            have h0 := ih 0
            simp only [List.headD_cons, if_pos] at h0
            push_cast
            rw [h0]
            ring
          | succ j =>
            rw [headAdd_getD_succ]
            have hj := ih (j + 1)
            simp only [List.headD_cons, if_neg (Nat.succ_ne_zero j)] at hj
            rw [hj]
            simp
        rw [hha]
        simp

/-- C6: synthetic division correctness — for every nonempty `p` with
`p(x) ≡ 0 (mod N)`, the synthetic-division quotient
`q = b[1..d]` has length `d`, the remainder `b[0]` is `0 mod N`, and
`(X − x)·q(X) = p(X)` coefficient-wise over `F_N`. -/
theorem c6_synthetic_division (x : Int) (p : List Int) (_hp : p ≠ [])
    (hpx : evalPolyF p x = 0) :
    (divPolysLin p x).length = p.length - 1 ∧
    ((synB x p).headD 0).emod secpN = 0 ∧
    (∀ i : Nat, (((linMul x (divPolysLin p x)).getD i 0 : Int) : ZMod secpNn)
      = ((p.getD i 0 : Int) : ZMod secpNn)) := by
  have hb0 : (((synB x p).headD 0 : Int) : ZMod secpNn) = 0 := by
    rw [synB_head]
    rw [← cast_emodN]
    have : (p.foldr (fun c acc => c + x * acc) 0).emod secpN = 0 := hpx
    rw [this]
    simp
  have hrem : ((synB x p).headD 0).emod secpN = 0 := by
    have hdvd : ((secpNn : Nat) : Int) ∣ (synB x p).headD 0 :=
      (ZMod.intCast_zmod_eq_zero_iff_dvd _ _).mp hb0
    exact Int.emod_eq_zero_of_dvd hdvd
  refine ⟨?_, hrem, ?_⟩
  · simp only [divPolysLin, List.length_tail, synB_length]
  · intro i
    have h := synB_linMul x p i
    simp only [divPolysLin] at h ⊢
    rw [h]
    by_cases hi : i = 0
    · rw [if_pos hi, hb0, sub_zero]
    · rw [if_neg hi, sub_zero]

/-- Witness for C6 at `p(X) = (N-1) + X`, `x = 1`. -/
theorem c6_synthetic_division_witness :
    (divPolysLin [secpN - 1, 1] 1).length = [secpN - 1, (1 : Int)].length - 1 ∧
    ((synB 1 [secpN - 1, 1]).headD 0).emod secpN = 0 ∧
    (((linMul 1 (divPolysLin [secpN - 1, 1] 1)).getD 0 0 : Int) : ZMod secpNn)
      = (([secpN - 1, 1].getD 0 0 : Int) : ZMod secpNn) := by
  obtain ⟨h1, h2, h3⟩ :=
    c6_synthetic_division 1 [secpN - 1, 1] (by simp) (by decide)
  exact ⟨h1, h2, h3 0⟩

/-! ### Claim C3 — verifier input validation -/

theorem coordsBad_iff (pf : RawProof) :
    coordsBad pf = true ↔ ∃ c ∈ coordsList pf, secpP ≤ c ∨ c < 0 := by
  simp [coordsBad, List.any_eq_true]

/-- C3 (amended): `verifyProof` returns `false` whenever the scalar `x`
or `z` is zero or `≥ N`, or one of the ten coordinates lies outside
`[0, P)`, or one of the five points fails the curve-membership check.
(The code does not reject a *negative* `x` or `z`; see the
counterexample.) -/
theorem c3_verifier_input_validation (M : ECModel) (pf : RawProof)
    (h : pf.x = 0 ∨ secpN ≤ pf.x ∨ pf.z = 0 ∨ secpN ≤ pf.z ∨
         (∃ c ∈ coordsList pf, secpP ≤ c ∨ c < 0) ∨
         M.toPt pf.C = none ∨ M.toPt pf.W = none ∨ M.toPt pf.P = none ∨
         M.toPt pf.A1 = none ∨ M.toPt pf.A2 = none) :
    verifyProof M pf = some false := by
  simp only [verifyProof]
  by_cases h1 : pf.x = 0 ∨ secpN ≤ pf.x
  · rw [if_pos h1]
  · rw [if_neg h1]
    by_cases h2 : pf.z = 0 ∨ secpN ≤ pf.z
    · rw [if_pos h2]
    · rw [if_neg h2]
      by_cases h3 : coordsBad pf = true
      · rw [if_pos h3]
      · rw [if_neg h3]
        rcases h with h | h | h | h | hco | h | h | h | h | h
        · exact absurd (Or.inl h) h1
        · exact absurd (Or.inr h) h1
        · exact absurd (Or.inl h) h2
        · exact absurd (Or.inr h) h2
        · exact absurd ((coordsBad_iff pf).mpr hco) h3
        · rw [h]
        · cases hC : M.toPt pf.C
          · rfl
          · rw [h]
        · cases hC : M.toPt pf.C
          · rfl
          · cases hW : M.toPt pf.W
            · rfl
            · rw [h]
        · cases hC : M.toPt pf.C
          · rfl
          · cases hW : M.toPt pf.W
            · rfl
            · cases hP : M.toPt pf.P
              · rfl
              · rw [h]
        · cases hC : M.toPt pf.C
          · rfl
          · cases hW : M.toPt pf.W
            · rfl
            · cases hP : M.toPt pf.P
              · rfl
              · cases hA1 : M.toPt pf.A1
                · rfl
                · rw [h]

/-- The Fiat–Shamir challenge produced by the constant `fakeKeccak`. -/
def e0 : Int := (bytesToIntBE (List.replicate 32 1)).emod secpN

/-- An accepted proof in the executable model:
`W = G`, `C = G`, `P = 3·G`, `x = 1` (so `T = 2·G`), `z = e0 + 1`
(so `A1 = zG − e0·W = G` and `A2 = zT − e0·C = (e0+2)·G`). -/
def pf0 : RawProof :=
  { C := (1, 0), W := (1, 0), P := (3, 0), A1 := (1, 0), A2 := (e0 + 2, 0),
    x := 1, z := e0 + 1 }

/-- C3 counterexample: a `DLEQProof` whose `z` is *negative* — outside
`[1, N)` — that `verifyProof` accepts.  The source checks only
`z === 0n` and `z >= N`, never negativity, and a negative
`z ≡ z₀ (mod N)` behaves as `z₀` in every scalar multiplication while
`z` itself is not hashed. -/
theorem c3_counterexample :
    ({ pf0 with z := pf0.z - secpN } : RawProof).z < 0 ∧
    verifyProof fakeECModel { pf0 with z := pf0.z - secpN } = some true := by
  constructor
  · decide
  · decide

/-- Witness for the amended C3: a zero `x` is rejected with `false`. -/
theorem c3_verifier_input_validation_witness :
    verifyProof fakeECModel { pf0 with x := 0 } = some false :=
  c3_verifier_input_validation fakeECModel { pf0 with x := 0 } (Or.inl rfl)

/-! ### Claim C4 — verifier totality -/

/-- C4 counterexample: on a proof passing every validation check but
with `P = x·G` (so `T = P − xG` is the point at infinity), `verifyProof`
throws — `none` — instead of returning `false`. -/
theorem c4_counterexample :
    verifyProof fakeECModel { pf0 with P := (1, 0) } = none := by decide

/-- C4 (amended): `verifyProof` never throws *provided* every
intermediate elliptic-curve operation is defined (none hits the point at
infinity or a zero scalar); under those hypotheses an algebraic mismatch
produces the return value `false`.  (Without them the verifier can
throw; see the counterexample.) -/
theorem c4_verifier_totality (M : ECModel) (pf : RawProof)
    (Cpt Wpt Ppt A1pt A2pt zG eW A1c X T zT eC A2c : M.Pt)
    (hC : M.toPt pf.C = some Cpt) (hW : M.toPt pf.W = some Wpt)
    (hP : M.toPt pf.P = some Ppt) (hA1 : M.toPt pf.A1 = some A1pt)
    (hA2 : M.toPt pf.A2 = some A2pt)
    (hzG : ecMulPt M M.G pf.z = some zG)
    (heW : ecMulPt M Wpt
      (buildChallenge M.keccak pf.C.1 pf.W.1 pf.P.1 pf.P.2
        (ecAddressB M pf.A1) (ecAddressB M pf.A2) pf.x
        (parityOf pf.C.2 pf.W.2)) = some eW)
    (hA1c : ecSubPt M zG eW = some A1c)
    (hX : ecMulPt M M.G pf.x = some X)
    (hT : ecSubPt M Ppt X = some T)
    (hzT : ecMulPt M T pf.z = some zT)
    (heC : ecMulPt M Cpt
      (buildChallenge M.keccak pf.C.1 pf.W.1 pf.P.1 pf.P.2
        (ecAddressB M pf.A1) (ecAddressB M pf.A2) pf.x
        (parityOf pf.C.2 pf.W.2)) = some eC)
    (hA2c : ecSubPt M zT eC = some A2c) :
    verifyProof M pf ≠ none ∧
    (¬(M.coords A1c = pf.A1 ∧ M.coords A2c = pf.A2) →
      verifyProof M pf = some false) := by
  simp only [verifyProof]
  by_cases h1 : pf.x = 0 ∨ secpN ≤ pf.x
  · rw [if_pos h1]
    exact ⟨by simp, fun _ => rfl⟩
  · rw [if_neg h1]
    by_cases h2 : pf.z = 0 ∨ secpN ≤ pf.z
    · rw [if_pos h2]
      exact ⟨by simp, fun _ => rfl⟩
    · rw [if_neg h2]
      by_cases h3 : coordsBad pf = true
      · rw [if_pos h3]
        exact ⟨by simp, fun _ => rfl⟩
      · rw [if_neg h3]
        rw [hC, hW, hP, hA1, hA2]
        simp only [hzG, heW, hA1c, hX, hT, hzT, heC, hA2c, Option.bind_eq_bind,
            Option.some_bind]
        by_cases hm1 : M.coords A1c = pf.A1
        · rw [if_neg (not_not_intro hm1)]
          by_cases hm2 : M.coords A2c = pf.A2
          · rw [if_neg (not_not_intro hm2)]
            exact ⟨by simp, fun hcon => absurd ⟨hm1, hm2⟩ hcon⟩
          · rw [if_pos hm2]
            exact ⟨by simp, fun _ => rfl⟩
        · rw [if_pos hm1]
          exact ⟨by simp, fun _ => rfl⟩

/-- Witness for the amended C4 at the accepted proof `pf0`. -/
theorem c4_verifier_totality_witness :
    verifyProof fakeECModel pf0 ≠ none ∧
    (¬(fakeECModel.coords ⟨((1 : Int) : ZMod secpNn)⟩ = pf0.A1 ∧
        fakeECModel.coords ⟨((e0 + 2 : Int) : ZMod secpNn)⟩ = pf0.A2) →
      verifyProof fakeECModel pf0 = some false) :=
  c4_verifier_totality fakeECModel pf0
    ⟨((1 : Int) : ZMod secpNn)⟩ ⟨((1 : Int) : ZMod secpNn)⟩
    ⟨((3 : Int) : ZMod secpNn)⟩ ⟨((1 : Int) : ZMod secpNn)⟩
    ⟨((e0 + 2 : Int) : ZMod secpNn)⟩
    ⟨((e0 + 1 : Int) : ZMod secpNn)⟩ ⟨((e0 : Int) : ZMod secpNn)⟩
    ⟨((1 : Int) : ZMod secpNn)⟩ ⟨((1 : Int) : ZMod secpNn)⟩
    ⟨((2 : Int) : ZMod secpNn)⟩ ⟨((2 * (e0 + 1) : Int) : ZMod secpNn)⟩
    ⟨((e0 : Int) : ZMod secpNn)⟩ ⟨((e0 + 2 : Int) : ZMod secpNn)⟩
    (by decide) (by decide) (by decide) (by decide) (by decide)
    (by decide) (by decide) (by decide) (by decide) (by decide)
    (by decide) (by decide) (by decide)

/-! ### Claim C5 — rejection of the `z + 1` mutation -/

/-- The claim's mutation: replace `z` by `(z + 1) mod N`. -/
def bumpZ (pf : RawProof) : RawProof := { pf with z := (pf.z + 1).emod secpN }

/-- The challenge `verifyProof` recomputes from a proof (`verifier.ts`
lines 52–65). -/
def challengeOf (M : ECModel) (pf : RawProof) : Int :=
  buildChallenge M.keccak pf.C.1 pf.W.1 pf.P.1 pf.P.2
    (ecAddressB M pf.A1) (ecAddressB M pf.A2) pf.x (parityOf pf.C.2 pf.W.2)

/-- Inversion of acceptance: an accepted proof parses to five points and
its `A1` chain was computed and matched. -/
theorem verify_true_chain (M : ECModel) (pf : RawProof)
    (h : verifyProof M pf = some true) :
    ∃ (Cpt Wpt Ppt A1pt A2pt zG eW A1c : M.Pt),
      M.toPt pf.C = some Cpt ∧ M.toPt pf.W = some Wpt ∧
      M.toPt pf.P = some Ppt ∧ M.toPt pf.A1 = some A1pt ∧
      M.toPt pf.A2 = some A2pt ∧
      ecMulPt M M.G pf.z = some zG ∧
      ecMulPt M Wpt (challengeOf M pf) = some eW ∧
      ecSubPt M zG eW = some A1c ∧
      M.coords A1c = pf.A1 := by
  simp only [verifyProof] at h
  by_cases h1 : pf.x = 0 ∨ secpN ≤ pf.x
  · rw [if_pos h1] at h
    simp at h
  rw [if_neg h1] at h
  by_cases h2 : pf.z = 0 ∨ secpN ≤ pf.z
  · rw [if_pos h2] at h
    simp at h
  rw [if_neg h2] at h
  by_cases h3 : coordsBad pf = true
  · rw [if_pos h3] at h
    simp at h
  rw [if_neg h3] at h
  cases hC : M.toPt pf.C with
  | none => rw [hC] at h; simp at h
  | some Cpt =>
  rw [hC] at h
  cases hW : M.toPt pf.W with
  | none => rw [hW] at h; simp at h
  | some Wpt =>
  rw [hW] at h
  cases hP : M.toPt pf.P with
  | none => rw [hP] at h; simp at h
  | some Ppt =>
  rw [hP] at h
  cases hA1 : M.toPt pf.A1 with
  | none => rw [hA1] at h; simp at h
  | some A1pt =>
  rw [hA1] at h
  cases hA2 : M.toPt pf.A2 with
  | none => rw [hA2] at h; simp at h
  | some A2pt =>
  rw [hA2] at h
  cases hzG : ecMulPt M M.G pf.z with
  | none => rw [hzG] at h; simp at h
  | some zG =>
  rw [hzG] at h
  simp only [Option.bind_eq_bind, Option.some_bind] at h
  cases heW : ecMulPt M Wpt (challengeOf M pf) with
  | none =>
    rw [show challengeOf M pf = buildChallenge M.keccak pf.C.1 pf.W.1 pf.P.1
      pf.P.2 (ecAddressB M pf.A1) (ecAddressB M pf.A2) pf.x
      (parityOf pf.C.2 pf.W.2) from rfl] at heW
    rw [heW] at h
    simp at h
  | some eW =>
  rw [show challengeOf M pf = buildChallenge M.keccak pf.C.1 pf.W.1 pf.P.1
    pf.P.2 (ecAddressB M pf.A1) (ecAddressB M pf.A2) pf.x
    (parityOf pf.C.2 pf.W.2) from rfl] at heW
  rw [heW] at h
  simp only [Option.bind_eq_bind, Option.some_bind] at h
  cases hA1c : ecSubPt M zG eW with
  | none => rw [hA1c] at h; simp at h
  | some A1c =>
  rw [hA1c] at h
  simp only [Option.bind_eq_bind, Option.some_bind] at h
  by_cases hm : M.coords A1c = pf.A1
  · exact ⟨Cpt, Wpt, Ppt, A1pt, A2pt, zG, eW, A1c, rfl, rfl, rfl, rfl, rfl,
      rfl, heW, hA1c, hm⟩
  · rw [if_pos hm] at h
    simp at h

/-- An accepted proof whose `A1` is `−G` (its `z` equals `e·w − 1`). -/
def pf5 : RawProof :=
  { C := (1, 0), W := (1, 0), P := (3, 0), A1 := (secpN - 1, 0),
    A2 := (e0 - 2, 0), x := 1, z := e0 - 1 }

/-- C5 counterexample: an accepted proof (`A1 = −G`, i.e. `z = e·w − 1`)
whose `z + 1 (mod N)` mutation makes the verifier THROW — the recomputed
`zG − eW` is the point at infinity — rather than return `false`. -/
theorem c5_counterexample :
    verifyProof fakeECModel pf5 = some true ∧
    verifyProof fakeECModel (bumpZ pf5) = none := by
  constructor
  · decide
  · decide

/-- C5 (amended): replacing `z` by `(z + 1) mod N` in an accepted proof
never yields an accepted proof (the verifier either returns `false` or —
in the `A1 = −G` corner case — throws). -/
theorem c5_bumpZ_rejected (M : ECModel) (pf : RawProof)
    (h : verifyProof M pf = some true) :
    verifyProof M (bumpZ pf) ≠ some true := by
  intro hbad
  obtain ⟨Cpt, Wpt, Ppt, A1pt, A2pt, zG, eW, A1c,
    hC, hW, hP, hA1, hA2, hzG, heW, hA1c, hA1eq⟩ := verify_true_chain M pf h
  obtain ⟨Cpt', Wpt', Ppt', A1pt', A2pt', zG', eW', A1c',
    hC', hW', hP', hA1', hA2', hzG', heW', hA1c', hA1eq'⟩ :=
    verify_true_chain M (bumpZ pf) hbad
  have hWpt : Wpt' = Wpt := by
    have hsame : M.toPt pf.W = some Wpt' := hW'
    rw [hW] at hsame
    exact (Option.some.inj hsame).symm
  have hch : challengeOf M (bumpZ pf) = challengeOf M pf := rfl
  have heWeq : eW' = eW := by
    rw [hch, hWpt] at heW'
    rw [heW] at heW'
    exact (Option.some.inj heW').symm
  obtain ⟨hzGv, hz1, _⟩ := ecMulPt_some hzG
  obtain ⟨hzGv', hz1', _⟩ := ecMulPt_some hzG'
  obtain ⟨hA1cv, hA1cne⟩ := ecSubPt_some hA1c
  obtain ⟨hA1cv', hA1cne'⟩ := ecSubPt_some hA1c'
  have hcoords' : M.coords A1c' = pf.A1 := hA1eq'
  have hpts : A1c = A1c' := by
    have t1 : M.toPt pf.A1 = some A1c := by
      rw [← hA1eq]
      exact M.toPt_coords A1c hA1cne
    have t2 : M.toPt pf.A1 = some A1c' := by
      rw [← hcoords']
      exact M.toPt_coords A1c' hA1cne'
    rw [t1] at t2
    exact Option.some.inj t2
  have hzGeq : zG = zG' := by
    have := hA1cv.symm.trans (hpts ▸ hA1cv')
    rw [heWeq] at this
    exact sub_left_injective this
  have hsub : ((bumpZ pf).z.emod secpN - pf.z.emod secpN) • M.G = 0 := by
    rw [sub_smul, ← hzGv, ← hzGv', hzGeq, sub_self]
  have hcong : ((bumpZ pf).z.emod secpN - pf.z.emod secpN).emod secpN
      = (1 : Int).emod secpN := by
    have hm1 : Int.ModEq secpN ((bumpZ pf).z.emod secpN) (pf.z + 1) :=
      (Int.mod_modEq ((pf.z + 1).emod secpN) secpN).trans
        (Int.mod_modEq (pf.z + 1) secpN)
    have hm2 : Int.ModEq secpN (pf.z.emod secpN) pf.z :=
      Int.mod_modEq pf.z secpN
    have h3 := hm1.sub hm2
    simpa using h3
  have hGeq : ((bumpZ pf).z.emod secpN - pf.z.emod secpN) • M.G
      = (1 : Int) • M.G := M.smul_congr M.G hcong
  have hG0 : (1 : Int) • M.G = 0 := hGeq.symm.trans hsub
  rw [one_smul] at hG0
  exact M.G_ne_zero hG0

/-- Witness for the amended C5: the mutation of the accepted `pf0` is
not accepted. -/
theorem c5_bumpZ_rejected_witness :
    verifyProof fakeECModel (bumpZ pf0) ≠ some true :=
  c5_bumpZ_rejected fakeECModel pf0 (by decide)

/-! ### Claim C1 — completeness of the single-prover pipeline -/

theorem emod_eq_of_castZ {a b : Int}
    (h : (a : ZMod secpNn) = (b : ZMod secpNn)) :
    a.emod secpN = b.emod secpN := by
  have := (ZMod.intCast_eq_intCast_iff' a b secpNn).mp h
  exact this

theorem emod_emod_self (a : Int) : (a.emod secpN).emod secpN = a.emod secpN :=
  Int.emod_emod_of_dvd a dvd_rfl

theorem emod_lt_N (a : Int) : a.emod secpN < secpN :=
  Int.emod_lt_of_pos a secpN_pos

theorem emod_nonneg_N (a : Int) : 0 ≤ a.emod secpN :=
  Int.emod_nonneg a (by have := secpN_pos; omega)

/-- C1: completeness.  For `x, s` in `[1, N)` with `s ≢ x (mod N)`, a
polynomial with `p(x) ≡ 0 (mod N)`, and a nonce `k` in `[1, N)`, if
`generateProof` returns a proof (equivalently, `proverRun` returns the
trace `tr`; success of the run embodies the claim's nondegeneracy of
`p(s)` and of the intermediate points), and the derived challenge and
response are nondegenerate (`e ≠ 0`, `z ≠ 0`, and the three products
`e·w`, `z·(s−x)`, `e·p(s)` are nonzero mod `N`, so that every point the
verifier recomputes is well-defined), then `verifyProof` accepts the
proof. -/
theorem c1_completeness (M : ECModel) (x s k : Int) (p : List Int)
    (tr : ProverTrace M)
    (hx1 : 1 ≤ x) (hx2 : x < secpN)
    (_hs1 : 1 ≤ s) (_hs2 : s < secpN)
    (_hk1 : 1 ≤ k) (_hk2 : k < secpN)
    (_hsx : (s - x).emod secpN ≠ 0)
    (hrun : proverRun M x p s k = some tr)
    (he : tr.e ≠ 0)
    (hz : tr.z ≠ 0)
    (hew : (tr.e * tr.w).emod secpN ≠ 0)
    (hzT : (tr.z * (s - x)).emod secpN ≠ 0)
    (heC : (tr.e * tr.ps).emod secpN ≠ 0) :
    generateProof M x p s k = some tr.proof ∧
    verifyProof M tr.proof = some true := by
  refine ⟨by rw [generateProof, hrun]; rfl, ?_⟩
  simp only [proverRun] at hrun
  by_cases hpx : evalPolyF (pnorm p) x ≠ 0
  · rw [if_pos hpx] at hrun
    cases hrun
  rw [if_neg hpx] at hrun
  cases hC : ecMulPt M M.G (evalPolyF (pnorm p) s) with
  | none => rw [hC] at hrun; simp at hrun
  | some Cpt =>
  rw [hC] at hrun
  simp only [Option.bind_eq_bind, Option.some_bind] at hrun
  cases hI : invMod ((s - x).emod secpN) secpN with
  | none => rw [hI] at hrun; simp at hrun
  | some inv =>
  rw [hI] at hrun
  simp only [Option.bind_eq_bind, Option.some_bind] at hrun
  cases hW : ecMulPt M M.G ((evalPolyF (pnorm p) s * inv).emod secpN) with
  | none => rw [hW] at hrun; simp at hrun
  | some Wpt =>
  rw [hW] at hrun
  simp only [Option.bind_eq_bind, Option.some_bind] at hrun
  cases hP : ecMulPt M M.G s with
  | none => rw [hP] at hrun; simp at hrun
  | some Ppt =>
  rw [hP] at hrun
  simp only [Option.bind_eq_bind, Option.some_bind] at hrun
  cases hA1 : ecMulPt M M.G k with
  | none => rw [hA1] at hrun; simp at hrun
  | some A1pt =>
  rw [hA1] at hrun
  simp only [Option.bind_eq_bind, Option.some_bind] at hrun
  cases hX : ecMulPt M M.G x with
  | none => rw [hX] at hrun; simp at hrun
  | some Xpt =>
  rw [hX] at hrun
  simp only [Option.bind_eq_bind, Option.some_bind] at hrun
  cases hT : ecSubPt M Ppt Xpt with
  | none => rw [hT] at hrun; simp at hrun
  | some Tpt =>
  rw [hT] at hrun
  simp only [Option.bind_eq_bind, Option.some_bind] at hrun
  cases hA2 : ecMulPt M Tpt k with
  | none => rw [hA2] at hrun; simp at hrun
  | some A2pt =>
  rw [hA2] at hrun
  simp only [Option.bind_eq_bind, Option.some_bind] at hrun
  -- the trace is now fully determined
  obtain rfl := (Option.some.inj hrun)
  clear hrun
  simp only at he hz hew hzT heC ⊢
  -- abbreviations for the scalar values
  set psv := evalPolyF (pnorm p) s with hpsv
  set wv := (psv * inv).emod secpN with hwv
  set ev := buildChallenge M.keccak (M.coords Cpt).1 (M.coords Wpt).1
    (M.coords Ppt).1 (M.coords Ppt).2 (ecAddressB M (M.coords A1pt))
    (ecAddressB M (M.coords A2pt)) x
    (parityOf (M.coords Cpt).2 (M.coords Wpt).2) with hev
  set zv := (k + (ev * wv).emod secpN).emod secpN with hzv
  -- unpack the point equations
  obtain ⟨hCv, hCs, hCne⟩ := ecMulPt_some hC
  obtain ⟨hWv, hWs, hWne⟩ := ecMulPt_some hW
  obtain ⟨hPv, hPs, hPne⟩ := ecMulPt_some hP
  obtain ⟨hA1v, hA1s, hA1ne⟩ := ecMulPt_some hA1
  obtain ⟨hXv, hXs, hXne⟩ := ecMulPt_some hX
  obtain ⟨hTv, hTne⟩ := ecSubPt_some hT
  obtain ⟨hA2v, hA2s, hA2ne⟩ := ecMulPt_some hA2
  -- the emitted proof object
  set pfL : RawProof :=
    { C := M.coords Cpt, W := M.coords Wpt, P := M.coords Ppt,
      A1 := M.coords A1pt, A2 := M.coords A2pt, x := x, z := zv } with hpfL
  -- the verifier's basic checks
  have hrangeX : ¬(pfL.x = 0 ∨ secpN ≤ pfL.x) := by
    simp only [hpfL]
    omega
  have hrangeZ : ¬(pfL.z = 0 ∨ secpN ≤ pfL.z) := by
    simp only [hpfL]
    have hlt : zv < secpN := emod_lt_N _
    intro hc
    rcases hc with hc | hc
    · exact hz hc
    · omega
  have hcoordsOk : ¬(coordsBad pfL = true) := by
    rw [coordsBad_iff]
    rintro ⟨c, hc, hbad⟩
    simp only [hpfL, coordsList, List.mem_cons, List.not_mem_nil, or_false] at hc
    obtain ⟨q1, q2, q3, q4⟩ := M.coords_range Cpt hCne
    obtain ⟨r1, r2, r3, r4⟩ := M.coords_range Wpt hWne
    obtain ⟨s1, s2, s3, s4⟩ := M.coords_range Ppt hPne
    obtain ⟨t1, t2, t3, t4⟩ := M.coords_range A1pt hA1ne
    obtain ⟨u1, u2, u3, u4⟩ := M.coords_range A2pt hA2ne
    rcases hc with rfl | rfl | rfl | rfl | rfl | rfl | rfl | rfl | rfl | rfl <;>
      rcases hbad with hbad | hbad <;> omega
  -- parse back the five points
  have htC : M.toPt pfL.C = some Cpt := M.toPt_coords Cpt hCne
  have htW : M.toPt pfL.W = some Wpt := M.toPt_coords Wpt hWne
  have htP : M.toPt pfL.P = some Ppt := M.toPt_coords Ppt hPne
  have htA1 : M.toPt pfL.A1 = some A1pt := M.toPt_coords A1pt hA1ne
  have htA2 : M.toPt pfL.A2 = some A2pt := M.toPt_coords A2pt hA2ne
  -- the verifier's challenge is the prover's
  have hech : challengeOf M pfL = ev := rfl
  -- scalar ranges
  have hzval : zv.emod secpN = zv := emod_emod_self _
  have heval : ev.emod secpN = ev := by
    rw [hev, buildChallenge]
    exact emod_emod_self _
  -- verifier chain values
  have hzG : ecMulPt M M.G pfL.z = some ((zv.emod secpN) • M.G) := by
    refine ecMulPt_eq M.G zv ?_ ?_
    · rw [hzval]; exact hz
    · exact M.smul_G_ne_zero (by rw [hzval, hzval]; exact hz)
  have hmulmod : ∀ a b : Int,
      ((a.emod secpN) * (b.emod secpN)).emod secpN = (a * b).emod secpN :=
    fun a b => (Int.mul_emod a b secpN).symm
  have hW0 : (ev.emod secpN) • Wpt ≠ 0 := by
    rw [hWv, smul_smul]
    exact M.smul_G_ne_zero (by rw [hmulmod]; exact hew)
  have heW : ecMulPt M Wpt
      (buildChallenge M.keccak pfL.C.1 pfL.W.1 pfL.P.1 pfL.P.2
        (ecAddressB M pfL.A1) (ecAddressB M pfL.A2) pfL.x
        (parityOf pfL.C.2 pfL.W.2)) = some ((ev.emod secpN) • Wpt) :=
    ecMulPt_eq Wpt ev (by rw [heval]; exact he) hW0
  have hA1eq : (zv.emod secpN) • M.G - (ev.emod secpN) • Wpt = A1pt := by
    rw [hWv, smul_smul, ← sub_smul, hA1v]
    apply M.smul_congr
    apply emod_eq_of_castZ
    rw [hzv, hwv]
    push_cast [cast_emodN]
    ring
  have hA1sub : ecSubPt M ((zv.emod secpN) • M.G) ((ev.emod secpN) • Wpt)
      = some A1pt := by
    rw [ecSubPt_eq _ _ (by rw [hA1eq]; exact hA1ne), hA1eq]
  have hXsome : ecMulPt M M.G pfL.x = some ((x.emod secpN) • M.G) :=
    ecMulPt_eq M.G x hXs (by rw [← hXv]; exact hXne)
  have hTsome : ecSubPt M Ppt ((x.emod secpN) • M.G) = some Tpt := by
    rw [← hXv, ecSubPt_eq _ _ (by rw [← hTv]; exact hTne), hTv]
  have hTval : Tpt = (s.emod secpN - x.emod secpN) • M.G := by
    rw [hTv, hPv, hXv, sub_smul]
  have hzT0 : (zv.emod secpN) • Tpt ≠ 0 := by
    rw [hTval, smul_smul]
    apply M.smul_G_ne_zero
    have hcg : (zv.emod secpN * (s.emod secpN - x.emod secpN)).emod secpN
        = (zv * (s - x)).emod secpN := by
      apply emod_eq_of_castZ
      push_cast [cast_emodN]
      ring
    rw [hcg]
    exact hzT
  have hzTsome : ecMulPt M Tpt pfL.z = some ((zv.emod secpN) • Tpt) :=
    ecMulPt_eq Tpt zv (by rw [hzval]; exact hz) hzT0
  have heC0 : (ev.emod secpN) • Cpt ≠ 0 := by
    rw [hCv, smul_smul]
    exact M.smul_G_ne_zero (by rw [hmulmod]; exact heC)
  have heCsome : ecMulPt M Cpt
      (buildChallenge M.keccak pfL.C.1 pfL.W.1 pfL.P.1 pfL.P.2
        (ecAddressB M pfL.A1) (ecAddressB M pfL.A2) pfL.x
        (parityOf pfL.C.2 pfL.W.2)) = some ((ev.emod secpN) • Cpt) :=
    ecMulPt_eq Cpt ev (by rw [heval]; exact he) heC0
  have hspec := invMod_spec (m := secpN) (by norm_num [secpN, secpNn]) hI
  have hinvZ : ((s : ZMod secpNn) - (x : ZMod secpNn)) * (inv : ZMod secpNn)
      = 1 := by
    have hc := congrArg (fun t : Int => ((t : ZMod secpNn))) hspec
    push_cast [cast_emodN] at hc
    exact hc
  have hA2eq : (zv.emod secpN) • Tpt - (ev.emod secpN) • Cpt = A2pt := by
    rw [hTval, hCv, smul_smul, smul_smul, ← sub_smul, hA2v, hTval, smul_smul]
    apply M.smul_congr
    apply emod_eq_of_castZ
    rw [hzv, hwv]
    push_cast [cast_emodN]
    linear_combination ((ev : ZMod secpNn) * (psv : ZMod secpNn)) * hinvZ
  have hA2sub : ecSubPt M ((zv.emod secpN) • Tpt) ((ev.emod secpN) • Cpt)
      = some A2pt := by
    rw [ecSubPt_eq _ _ (by rw [hA2eq]; exact hA2ne), hA2eq]
  have hA1pf : M.coords A1pt = pfL.A1 := rfl
  have hA2pf : M.coords A2pt = pfL.A2 := rfl
  simp only [verifyProof]
  rw [if_neg hrangeX, if_neg hrangeZ, if_neg hcoordsOk]
  rw [htC, htW, htP, htA1, htA2]
  simp only [hzG, heW, hA1sub, hXsome, hTsome, hzTsome, heCsome, hA2sub,
    Option.bind_eq_bind, Option.some_bind]
  rw [if_neg (not_not_intro hA1pf), if_neg (not_not_intro hA2pf)]

/-- The concrete prover trace for `x = 1`, `p = [-1, 1]`, `s = 2`,
nonce `k = 1` in the executable model. -/
def tr1 : ProverTrace fakeECModel :=
  { ps := 1, w := 1, e := e0, z := e0 + 1,
    Cpt := ⟨((1 : Int) : ZMod secpNn)⟩, Wpt := ⟨((1 : Int) : ZMod secpNn)⟩,
    Ppt := ⟨((2 : Int) : ZMod secpNn)⟩, A1pt := ⟨((1 : Int) : ZMod secpNn)⟩,
    Tpt := ⟨((1 : Int) : ZMod secpNn)⟩, A2pt := ⟨((1 : Int) : ZMod secpNn)⟩,
    proof := { C := (1, 0), W := (1, 0), P := (2, 0), A1 := (1, 0),
               A2 := (1, 0), x := 1, z := e0 + 1 } }

set_option maxRecDepth 40000 in
/-- Witness for C1: the concrete run `x = 1`, `p(X) = X - 1`, `s = 2`,
`k = 1` produces a proof that the verifier accepts. -/
theorem c1_completeness_witness :
    generateProof fakeECModel 1 [-1, 1] 2 1 = some tr1.proof ∧
    verifyProof fakeECModel tr1.proof = some true :=
  c1_completeness fakeECModel 1 2 1 [-1, 1] tr1
    (by decide) (by decide) (by decide) (by decide) (by decide) (by decide)
    (by decide) (by rfl) (by decide) (by decide) (by decide) (by decide)
    (by decide)

/-! ### Claim C7 — prover refusal on degenerate inputs -/

theorem ecMulRaw_coords (M : ECModel) (p : M.Pt) (hp : p ≠ 0) (a : Int)
    (ha : a.emod secpN ≠ 0) (hap : (a.emod secpN) • p ≠ 0) :
    ecMulRaw M (M.coords p) a = some (M.coords ((a.emod secpN) • p)) := by
  simp only [ecMulRaw, M.toPt_coords p hp, Option.bind_eq_bind, Option.some_bind]
  rw [ecMulPt_eq p a ha hap]
  rfl

theorem invMod_zero_N : invMod 0 secpN = none := by decide

/-- From a successful `generateSRS` run: the secret is nonzero mod `N`
and the degree-1 entry is `(s mod N)·G`. -/
theorem generateSRS_head (M : ECModel) (s : Int) (d : Nat)
    (srs : List (Int × Int)) (hd : 1 ≤ d)
    (h : generateSRS M s d = some srs) :
    s.emod secpN ≠ 0 ∧
    srs.getD 1 (0, 0) = M.coords ((s.emod secpN) • M.G) := by
  simp only [generateSRS] at h
  by_cases hs0 : s.emod secpN = 0
  · rw [if_pos hs0] at h
    cases h
  · rw [if_neg hs0] at h
    refine ⟨hs0, ?_⟩
    obtain ⟨d', rfl⟩ : ∃ d', d = d' + 1 := ⟨d - 1, by omega⟩
    simp only [srsGo] at h
    have ha : (s.emod secpN).emod secpN ≠ 0 := by
      rw [emod_emod_self]; exact hs0
    have hmul := ecMulRaw_coords M M.G M.G_ne_zero (s.emod secpN) ha
      (M.smul_G_ne_zero (by rw [emod_emod_self]; exact ha))
    rw [emod_emod_self] at hmul
    rw [hmul] at h
    simp only [Option.bind_eq_bind, Option.some_bind] at h
    cases hrest : srsGo M (s.emod secpN) d' (M.coords ((s.emod secpN) • M.G)) with
    | none =>
      rw [hrest] at h
      simp at h
    | some rest =>
      rw [hrest] at h
      simp only [Option.some_bind] at h
      obtain rfl :
          M.coords M.G :: M.coords ((s.emod secpN) • M.G) :: rest = srs :=
        Option.some.inj h
      rfl

/-- C7: both provers raise on `p(x) ≢ 0 (mod N)` and on `s ≡ x (mod N)`
(where `T = P − x·G` would be the point at infinity), the SRS here being
the output of `generateSRS` for the secret `s`. -/
theorem c7_prover_refusal (M : ECModel) (x s k : Int) (p : List Int)
    (d : Nat) (srs : List (Int × Int))
    (hx1 : 1 ≤ x) (hx2 : x < secpN)
    (hd : 1 ≤ d) (hsrs : generateSRS M s d = some srs) :
    (evalPolyF (pnorm p) x ≠ 0 →
      generateProof M x p s k = none ∧
      generateProofUsingSRS M x p s srs k = none) ∧
    ((s - x).emod secpN = 0 →
      generateProof M x p s k = none ∧
      generateProofUsingSRS M x p s srs k = none) := by
  have hxeq : x.emod secpN = x := Int.emod_eq_of_lt (by omega) hx2
  have hxne : x.emod secpN ≠ 0 := by rw [hxeq]; omega
  have hGx : (x.emod secpN) • M.G ≠ 0 :=
    M.smul_G_ne_zero (by rw [emod_emod_self]; exact hxne)
  obtain ⟨hs0, hget⟩ := generateSRS_head M s d srs hd hsrs
  -- the cheating prover
  have hcheat : ∀ _ : ((s - x).emod secpN = 0 ∨ evalPolyF (pnorm p) x ≠ 0),
      generateProof M x p s k = none := by
    intro hcase
    simp only [generateProof, proverRun]
    by_cases hpx : evalPolyF (pnorm p) x ≠ 0
    · rw [if_pos hpx]
      rfl
    · rw [if_neg hpx]
      have hsx : (s - x).emod secpN = 0 := by
        rcases hcase with h | h
        · exact h
        · exact absurd h hpx
      have hiv : invMod ((s - x).emod secpN) secpN = none := by
        rw [hsx]
        exact invMod_zero_N
      cases hC : ecMulPt M M.G (evalPolyF (pnorm p) s) with
      | none =>
        simp only [hC, Option.bind_eq_bind, Option.none_bind, Option.map_none']
      | some Cpt =>
        simp only [hC, hiv, Option.bind_eq_bind, Option.some_bind,
          Option.none_bind, Option.map_none']
  -- the SRS prover
  have hSRS : ∀ _ : ((s - x).emod secpN = 0 ∨ evalPolyF (pnorm p) x ≠ 0),
      generateProofUsingSRS M x p s srs k = none := by
    intro hcase
    simp only [generateProofUsingSRS]
    by_cases h1 : p.length = 0
    · rw [if_pos h1]
    · rw [if_neg h1]
      by_cases h2 : srs.length < p.length
      · rw [if_pos h2]
      · rw [if_neg h2]
        rw [hxeq]
        rw [if_neg (show ¬ x = 0 by omega)]
        by_cases hpx : evalPolyF (pnorm p) x ≠ 0
        · rw [if_pos hpx]
        · rw [if_neg hpx]
          have hsx : (s - x).emod secpN = 0 := by
            rcases hcase with h | h
            · exact h
            · exact absurd h hpx
          have hseq : s.emod secpN = x.emod secpN :=
            Int.emod_eq_emod_iff_emod_sub_eq_zero.mpr hsx
          have hPp1 : srs.getD 1 (0, 0) = M.coords ((x.emod secpN) • M.G) := by
            rw [hget, hseq]
          have hXsome := ecMulRaw_coords M M.G M.G_ne_zero x hxne hGx
          have hsub : ecSubPt M ((x.emod secpN) • M.G) ((x.emod secpN) • M.G)
              = none := by
            simp only [ecSubPt]
            rw [if_pos (sub_self _)]
          have hTnone : ecSubRaw M (M.coords ((x.emod secpN) • M.G))
              (M.coords ((x.emod secpN) • M.G)) = none := by
            simp only [ecSubRaw, M.toPt_coords _ hGx, hsub,
              Option.bind_eq_bind, Option.some_bind, Option.none_bind]
          cases hC : commitPolynomial M (pnorm p) srs with
          | none =>
            simp only [hC, Option.bind_eq_bind, Option.none_bind]
          | some C =>
            simp only [hC, Option.bind_eq_bind, Option.some_bind]
            by_cases hb : (synB x (pnorm p)).headD 0 ≠ 0
            · rw [if_pos hb]
            · rw [if_neg hb]
              cases hW : commitPolynomial M (synB x (pnorm p)).tail srs with
              | none =>
                simp only [hW, Option.bind_eq_bind, Option.none_bind]
              | some W =>
                simp only [hW, Option.bind_eq_bind, Option.some_bind]
                by_cases h2len : srs.length < 2
                · rw [if_pos h2len]
                · rw [if_neg h2len]
                  rw [hPp1]
                  simp only [hXsome, hTnone, Option.bind_eq_bind,
                    Option.some_bind, Option.none_bind]
  exact ⟨fun h => ⟨hcheat (Or.inr h), hSRS (Or.inr h)⟩,
         fun h => ⟨hcheat (Or.inl h), hSRS (Or.inl h)⟩⟩

set_option maxRecDepth 40000 in
/-- Witness for C7: `x = s = 2` (so `s ≡ x`) with `p(X) = X + 1`
(`p(2) = 3 ≠ 0`): both provers refuse, on either ground. -/
theorem c7_prover_refusal_witness :
    generateProof fakeECModel 2 [1, 1] 2 5 = none ∧
    generateProofUsingSRS fakeECModel 2 [1, 1] 2 [(1, 0), (2, 0)] 5 = none :=
  (c7_prover_refusal fakeECModel 2 2 5 [1, 1] 1 [(1, 0), (2, 0)]
    (by decide) (by decide) (by decide) (by decide)).2 (by decide)

/-! ### Claim C10 — threshold-node determinism -/

/-- C10: `proverStart` is deterministic — two invocations on the same
request return the same broadcast message and secret state — and the
nonce of the state is exactly
`deterministicNonce(wᵢ, [x, Px, Py, Cix, Wix])` over the values of its
own output (no CSPRNG call appears in the embedding because none occurs
in the source). -/
theorem c10_proverStart_deterministic (M : ECModel)
    (msg : PolyEvalProofStart) (m1 m2 : PolyMsg) (st1 st2 : PolyState)
    (h1 : proverStart M msg = some (m1, st1))
    (h2 : proverStart M msg = some (m2, st2)) :
    m1 = m2 ∧ st1 = st2 ∧
    st1.k = deterministicNonce M.keccak st1.wi
      [msg.x, msg.P.1, msg.P.2, m1.Ci.1, m1.Wi.1] := by
  have h12 := Option.some.inj (h1.symm.trans h2)
  refine ⟨congrArg Prod.fst h12, congrArg Prod.snd h12, ?_⟩
  simp only [proverStart] at h1
  by_cases hg : (msg.srsShare.length : Int) - 1 < (msg.p.length : Int) - 1
  · rw [if_pos hg] at h1
    cases h1
  · rw [if_neg hg] at h1
    cases hCi : ecMulRaw M (M.coords M.G)
        (combineVectors msg.p (msg.srsShare.take msg.p.length)) with
    | none => rw [hCi] at h1; simp at h1
    | some Ci =>
    rw [hCi] at h1
    simp only [Option.bind_eq_bind, Option.some_bind] at h1
    cases hWi : ecMulRaw M (M.coords M.G)
        (combineVectors (divPolysLin msg.p msg.x)
          (msg.srsShare.take (divPolysLin msg.p msg.x).length)) with
    | none => rw [hWi] at h1; simp at h1
    | some Wi =>
    rw [hWi] at h1
    simp only [Option.bind_eq_bind, Option.some_bind] at h1
    cases hA1 : ecMulRaw M (M.coords M.G)
        (deterministicNonce M.keccak
          (combineVectors (divPolysLin msg.p msg.x)
            (msg.srsShare.take (divPolysLin msg.p msg.x).length))
          [msg.x, msg.P.1, msg.P.2, Ci.1, Wi.1]) with
    | none => rw [hA1] at h1; simp at h1
    | some A1i =>
    rw [hA1] at h1
    simp only [Option.bind_eq_bind, Option.some_bind] at h1
    cases hX : ecMulRaw M (M.coords M.G) msg.x with
    | none => rw [hX] at h1; simp at h1
    | some X =>
    rw [hX] at h1
    simp only [Option.bind_eq_bind, Option.some_bind] at h1
    cases hT : ecSubRaw M msg.P X with
    | none => rw [hT] at h1; simp at h1
    | some T =>
    rw [hT] at h1
    simp only [Option.bind_eq_bind, Option.some_bind] at h1
    cases hA2 : ecMulRaw M T
        (deterministicNonce M.keccak
          (combineVectors (divPolysLin msg.p msg.x)
            (msg.srsShare.take (divPolysLin msg.p msg.x).length))
          [msg.x, msg.P.1, msg.P.2, Ci.1, Wi.1]) with
    | none => rw [hA2] at h1; simp at h1
    | some A2i =>
    rw [hA2] at h1
    simp only [Option.bind_eq_bind, Option.some_bind, Option.some.injEq,
      Prod.mk.injEq] at h1
    obtain ⟨rfl, rfl⟩ := h1.symm
    rfl

/-- A concrete Round-1 request: `x = 1`, `p(X) = X - 1`,
SRS share scalars `[1, 2]`, aggregated `P = (3, 0)`. -/
def msg0 : PolyEvalProofStart :=
  { x := 1, p := [-1, 1], srsShare := [1, 2], P := (3, 0) }

/-- The broadcast message `proverStart` computes on `msg0` in the
executable model. -/
def pmsg0 : PolyMsg :=
  { Ci := (1, 0), Wi := (1, 0), A1i := (e0 + 1, 0), A2i := (2 * (e0 + 1), 0) }

/-- The secret state `proverStart` computes on `msg0`. -/
def pst0 : PolyState := { k := e0 + 1, wi := 1 }

set_option maxRecDepth 40000 in
/-- Witness for C10 on the concrete request `msg0`. -/
theorem c10_proverStart_deterministic_witness :
    pmsg0 = pmsg0 ∧ pst0 = pst0 ∧
    pst0.k = deterministicNonce fakeECModel.keccak pst0.wi
      [msg0.x, msg0.P.1, msg0.P.2, pmsg0.Ci.1, pmsg0.Wi.1] :=
  c10_proverStart_deterministic fakeECModel msg0 pmsg0 pmsg0 pst0 pst0
    (by decide) (by decide)

/-! ### Claim C8 — the VOLE-masked prover refines the interactive prover -/

/-- One node's data in the VOLE protocol: its Round-1 point shares, its
secret state `(k, wᵢ)`, its OLE sender sample `(a, b)` and OLE index. -/
structure VNode where
  msg : PolyMsg
  st : PolyState
  a : Int
  b : Int
  idx : Nat
deriving DecidableEq

/-- The share a node sends (`proverVoleStart`, `prover_vole.ts`): the
points together with `Δw = wᵢ − a` and `Δk = k − b` (via `Field.sub`). -/
def nodeShare (n : VNode) : VoleShare :=
  { Ci := n.msg.Ci, Wi := n.msg.Wi, A1i := n.msg.A1i, A2i := n.msg.A2i,
    deltaW := fSub n.st.wi n.a, deltaK := fSub n.st.k n.b,
    oleIndex := n.idx }

/-- The receiver-side OLE sample for challenge `e` assumed by the claim
(and produced by ROLE): `y = a·e + b (mod N)` at input `x = e`. -/
def nodeOle (e : Int) (n : VNode) : RecvOLE :=
  { index := n.idx, x := e, y := fAdd (fMul n.a e) n.b }

/-- The body of the aggregation loop of `proverVoleFinalize`
(`prover_vole.ts` lines 366–382): look the OLE sample up by index,
insist its input equals the challenge, and add
`y + e·Δw + Δk (mod N)`. -/
def voleStep (oleSamples : List RecvOLE) (e : Int) (z : Int)
    (share : VoleShare) : Option Int :=
  match oleSamples.find? (fun o => o.index = share.oleIndex) with
  | none => none
  | some ole =>
    if ole.x ≠ e then none
    else some (fAdd z (fAdd ole.y
      (fAdd (fMul e share.deltaW) share.deltaK)))

/-- The per-node reconstruction identity of the claim:
`(a·e + b) + (e·(w − a) + (k − b)) = k + e·w` in the field. -/
theorem vole_step_id (a b w k e : Int) :
    fAdd (fAdd (fMul a e) b) (fAdd (fMul e (fSub w a)) (fSub k b))
      = fAdd k (fMul e w) := by
  simp only [fAdd, fMul, fSub]
  apply emod_eq_of_castZ
  push_cast [cast_emodN]
  ring

theorem mapM_option_loop {α β : Type} (g : α → β) :
    ∀ (l : List α) (acc : List β),
      List.mapM.loop (fun a => some (g a)) l acc
        = some (acc.reverse ++ l.map g) := by
  intro l
  induction l with
  | nil =>
    intro acc
    simp [List.mapM.loop]
  | cons a l ih =>
    intro acc
    simp [List.mapM.loop, ih]

theorem mapM_option_some {α β : Type} (g : α → β) (l : List α) :
    l.mapM (fun a => some (g a)) = some (l.map g) := by
  simpa using mapM_option_loop g l []

/-- With distinct indices, the lookup in the mapped OLE list returns the
node's own sample. -/
theorem find_nodeOle (e : Int) :
    ∀ (nodes : List VNode), (nodes.map (fun n => n.idx)).Nodup →
    ∀ n ∈ nodes, (nodes.map (nodeOle e)).find? (fun o => o.index = n.idx)
      = some (nodeOle e n) := by
  intro nodes
  induction nodes with
  | nil =>
    intro _ n hn
    cases hn
  | cons m rest ih =>
    intro hnd n hn
    simp only [List.map_cons] at hnd ⊢
    rw [List.nodup_cons] at hnd
    rcases List.mem_cons.mp hn with rfl | hmem
    · rw [List.find?_cons_of_pos _ (by simp [nodeOle])]
    · have hin : n.idx ∈ rest.map (fun n => n.idx) :=
        List.mem_map_of_mem _ hmem
      have hne : m.idx ≠ n.idx := fun h => hnd.1 (h ▸ hin)
      rw [List.find?_cons_of_neg _ (by simp [nodeOle, hne])]
      exact ih hnd.2 n hmem

/-- Evaluation of the aggregation fold when every lookup succeeds with
the node's own sample at input `e`. -/
theorem vole_fold_some (e : Int) (oles : List RecvOLE) :
    ∀ (ns : List VNode) (acc : Int),
      (∀ n ∈ ns, oles.find? (fun o => o.index = n.idx) = some (nodeOle e n)) →
      (ns.map nodeShare).foldlM (voleStep oles e) acc
        = some (ns.foldl (fun z n => fAdd z (fAdd (nodeOle e n).y
            (fAdd (fMul e (nodeShare n).deltaW) (nodeShare n).deltaK))) acc) := by
  intro ns
  induction ns with
  | nil =>
    intro acc _
    rfl
  | cons n rest ih =>
    intro acc hl
    simp only [List.map_cons, List.foldlM_cons, List.foldl_cons]
    have hfind : oles.find? (fun o => o.index = (nodeShare n).oleIndex)
        = some (nodeOle e n) := hl n (List.mem_cons_self n rest)
    have hstep : voleStep oles e acc (nodeShare n)
        = some (fAdd acc (fAdd (nodeOle e n).y
            (fAdd (fMul e (nodeShare n).deltaW) (nodeShare n).deltaK))) := by
      simp only [voleStep, hfind]
      rw [if_neg (show ¬((nodeOle e n).x ≠ e) from
        not_not_intro (by simp [nodeOle]))]
    rw [hstep]
    simp only [Option.bind_eq_bind, Option.some_bind]
    exact ih _ (fun m hm => hl m (List.mem_cons_of_mem _ hm))

theorem foldl_add_sum : ∀ (l : List Int) (acc : Int),
    l.foldl (· + ·) acc = acc + l.sum := by
  intro l
  induction l with
  | nil =>
    intro acc
    simp
  | cons a l ih =>
    intro acc
    simp only [List.foldl_cons, List.sum_cons, ih]
    ring

theorem zip_ones_foldl : ∀ (L : List Int) (acc : Int),
    (L.zip (List.replicate L.length 1)).foldl
      (fun acc p => acc + p.1 * p.2) acc = acc + L.sum := by
  intro L
  induction L with
  | nil =>
    intro acc
    simp
  | cons a L ih =>
    intro acc
    simp only [List.length_cons, List.replicate_succ, List.zip_cons_cons,
      List.foldl_cons, List.sum_cons, ih]
    ring

theorem vole_foldl_emod (v : VNode → Int) : ∀ (ns : List VNode) (acc : Int),
    (ns.foldl (fun z n => fAdd z (v n)) acc).emod secpN
      = (acc + (ns.map v).sum).emod secpN := by
  intro ns
  induction ns with
  | nil =>
    intro acc
    simp
  | cons n rest ih =>
    intro acc
    simp only [List.foldl_cons, List.map_cons, List.sum_cons, ih]
    simp only [fAdd]
    apply emod_eq_of_castZ
    push_cast [cast_emodN]
    ring

theorem vole_foldl_reduced (v : VNode → Int) : ∀ (ns : List VNode) (acc : Int),
    acc.emod secpN = acc →
    (ns.foldl (fun z n => fAdd z (v n)) acc).emod secpN
      = ns.foldl (fun z n => fAdd z (v n)) acc := by
  intro ns
  induction ns with
  | nil =>
    intro acc hacc
    exact hacc
  | cons n rest ih =>
    intro acc _
    simp only [List.foldl_cons]
    exact ih _ (by simp only [fAdd]; exact emod_emod_self _)


/-- C8: with per-node shares carrying `Δw = wᵢ − a`, `Δk = k − b` and
receiver OLE samples `y = a·e + b` at input `e`, the per-node
reconstruction `y + e·Δw + Δk` equals the interactive response
`k + e·wᵢ` (first conjunct), and whenever `proverVoleFinalize` emits a
proof on such inputs the two-round interactive prover over the same
nodes emits the very same `DLEQProof` (second conjunct). -/
theorem c8_vole_refinement (M : ECModel) (nodes : List VNode) (x : Int)
    (P : Int × Int) (e : Int) (pf : RawProof)
    (hvole : proverVoleFinalize M (nodes.map nodeShare)
        (nodes.map (nodeOle e)) x P = some pf) :
    (∀ a b w k e' : Int,
      fAdd (fAdd (fMul a e') b)
        (fAdd (fMul e' (fSub w a)) (fSub k b)) = fAdd k (fMul e' w)) ∧
    interactiveProve M (nodes.map VNode.msg) x P (nodes.map VNode.st)
      = some pf := by
  refine ⟨fun a b w k e' => vole_step_id a b w k e', ?_⟩
  cases nodes with
  | nil =>
    rw [show proverVoleFinalize M (([] : List VNode).map nodeShare)
        (([] : List VNode).map (nodeOle e)) x P = none from rfl] at hvole
    cases hvole
  | cons n0 nt =>
  simp only [proverVoleFinalize] at hvole
  rw [if_neg (show ¬((n0 :: nt).map nodeShare).length = 0 by simp)] at hvole
  rw [if_neg (not_not_intro (show ((n0 :: nt).map (nodeOle e)).length
      = ((n0 :: nt).map nodeShare).length by simp))] at hvole
  by_cases hnd : (((n0 :: nt).map (nodeOle e)).map (fun o => o.index)).Nodup
  case neg =>
    rw [if_pos hnd] at hvole
    cases hvole
  have hidx : ((n0 :: nt).map (fun n => n.idx)).Nodup := by
    have hmapidx : (((n0 :: nt).map (nodeOle e)).map (fun o => o.index))
        = (n0 :: nt).map (fun n => n.idx) := by
      simp only [List.map_map]
      rfl
    rwa [hmapidx] at hnd
  rw [if_neg (not_not_intro hnd)] at hvole
  simp only [Option.bind_eq_bind] at hvole
  rw [Option.bind_eq_some] at hvole
  obtain ⟨Cg, hCagg, hvole⟩ := hvole
  rw [Option.bind_eq_some] at hvole
  obtain ⟨Wg, hWagg, hvole⟩ := hvole
  rw [Option.bind_eq_some] at hvole
  obtain ⟨A1g, hA1agg, hvole⟩ := hvole
  rw [Option.bind_eq_some] at hvole
  obtain ⟨A2g, hA2agg, hvole⟩ := hvole
  by_cases hxr : x = 0 ∨ secpN ≤ x
  case pos =>
    rw [if_pos hxr] at hvole
    cases hvole
  rw [if_neg hxr] at hvole
  by_cases hcs : ([Cg.1, Cg.2, Wg.1, Wg.2, P.1, P.2, A1g.1, A1g.2,
      A2g.1, A2g.2].any (fun c => decide (secpP ≤ c) || decide (c < 0))) = true
  case pos =>
    rw [if_pos hcs] at hvole
    cases hvole
  rw [if_neg hcs] at hvole
  cases htC : M.toPt Cg with
  | none => rw [htC] at hvole; simp at hvole
  | some Cp =>
  rw [htC] at hvole
  cases htW : M.toPt Wg with
  | none => rw [htW] at hvole; simp at hvole
  | some Wp =>
  rw [htW] at hvole
  cases htP : M.toPt P with
  | none => rw [htP] at hvole; simp at hvole
  | some Pp =>
  rw [htP] at hvole
  cases htA1 : M.toPt A1g with
  | none => rw [htA1] at hvole; simp at hvole
  | some A1p =>
  rw [htA1] at hvole
  cases htA2 : M.toPt A2g with
  | none => rw [htA2] at hvole; simp at hvole
  | some A2p =>
  rw [htA2] at hvole
  have hvole2 : (do
      let z ← ((n0 :: nt).map nodeShare).foldlM
        (voleStep ((n0 :: nt).map (nodeOle e))
          (buildChallenge M.keccak Cg.1 Wg.1 P.1 P.2 (ecAddressB M A1g)
            (ecAddressB M A2g) x (parityOf Cg.2 Wg.2))) 0
      if z = 0 ∨ secpN ≤ z then none
      else some (RawProof.mk Cg Wg P A1g A2g x z) : Option RawProof)
      = some pf := hvole
  clear hvole
  simp only [Option.bind_eq_bind] at hvole2
  rw [Option.bind_eq_some] at hvole2
  obtain ⟨z, hzf, hvole2⟩ := hvole2
  by_cases hzr : z = 0 ∨ secpN ≤ z
  case pos =>
    rw [if_pos hzr] at hvole2
    cases hvole2
  rw [if_neg hzr] at hvole2
  obtain rfl : RawProof.mk Cg Wg P A1g A2g x z = pf :=
    Option.some.inj hvole2
  set E0 := buildChallenge M.keccak Cg.1 Wg.1 P.1 P.2 (ecAddressB M A1g)
    (ecAddressB M A2g) x (parityOf Cg.2 Wg.2) with hE0
  have holes := find_nodeOle e (n0 :: nt) hidx
  by_cases hEe : E0 = e
  case neg =>
    have hf0 : (nodeOle e n0 :: nt.map (nodeOle e)).find?
        (fun o => o.index = (nodeShare n0).oleIndex) = some (nodeOle e n0) :=
      holes n0 (List.mem_cons_self n0 nt)
    have hstep0 : voleStep (nodeOle e n0 :: nt.map (nodeOle e)) E0 0
        (nodeShare n0) = none := by
      simp only [voleStep, hf0]
      rw [if_pos (show (nodeOle e n0).x ≠ E0 from
        fun h => hEe (show e = E0 from h).symm)]
    simp only [List.map_cons, List.foldlM_cons, hstep0, Option.bind_eq_bind,
      Option.none_bind] at hzf
    cases hzf
  rw [hEe] at hzf
  rw [vole_fold_some e ((n0 :: nt).map (nodeOle e)) (n0 :: nt) 0 holes] at hzf
  have hzval := Option.some.inj hzf
  have hfunv : (fun (z : Int) n => fAdd z (fAdd (nodeOle e n).y
      (fAdd (fMul e (nodeShare n).deltaW) (nodeShare n).deltaK)))
      = (fun (z : Int) (n : VNode) => fAdd z (fAdd n.st.k (fMul e n.st.wi))) :=
    funext fun z => funext fun n => congrArg (fAdd z) (by
      simp only [nodeOle, nodeShare]
      exact vole_step_id n.a n.b n.st.wi n.st.k e)
  rw [hfunv] at hzval
  have hz1 : z.emod secpN = z := by
    rw [← hzval]
    exact vole_foldl_reduced _ _ _ (Int.zero_emod _)
  have hz2 : z.emod secpN
      = (0 + ((n0 :: nt).map (fun n => fAdd n.st.k (fMul e n.st.wi))).sum).emod
          secpN := by
    rw [← hzval]
    exact vole_foldl_emod _ _ _
  have hmapC : ((n0 :: nt).map VNode.msg).map (fun s => s.Ci)
      = ((n0 :: nt).map nodeShare).map (fun s => s.Ci) := by
    simp only [List.map_map]
    rfl
  have hmapW : ((n0 :: nt).map VNode.msg).map (fun s => s.Wi)
      = ((n0 :: nt).map nodeShare).map (fun s => s.Wi) := by
    simp only [List.map_map]
    rfl
  have hmapA1 : ((n0 :: nt).map VNode.msg).map (fun s => s.A1i)
      = ((n0 :: nt).map nodeShare).map (fun s => s.A1i) := by
    simp only [List.map_map]
    rfl
  have hmapA2 : ((n0 :: nt).map VNode.msg).map (fun s => s.A2i)
      = ((n0 :: nt).map nodeShare).map (fun s => s.A2i) := by
    simp only [List.map_map]
    rfl
  have hCm : sumPoints M (((n0 :: nt).map VNode.msg).map (fun s => s.Ci))
      = some Cg := by rw [hmapC]; exact hCagg
  have hWm : sumPoints M (((n0 :: nt).map VNode.msg).map (fun s => s.Wi))
      = some Wg := by rw [hmapW]; exact hWagg
  have hA1m : sumPoints M (((n0 :: nt).map VNode.msg).map (fun s => s.A1i))
      = some A1g := by rw [hmapA1]; exact hA1agg
  have hA2m : sumPoints M (((n0 :: nt).map VNode.msg).map (fun s => s.A2i))
      = some A2g := by rw [hmapA2]; exact hA2agg
  have hEterm : buildChallenge M.keccak Cg.1 Wg.1 P.1 P.2 (ecAddressB M A1g)
      (ecAddressB M A2g) x (parityOf Cg.2 Wg.2) = e := hE0.symm.trans hEe
  have hresp : ∀ st : PolyState,
      proverRespond M ((n0 :: nt).map VNode.msg) x P st
        = some (PolyRound2.mk x P Cg Wg A1g A2g e
            (fAdd st.k (fMul e st.wi))) := by
    intro st
    simp only [proverRespond]
    rw [if_neg (show ¬((n0 :: nt).map VNode.msg).length = 0 by simp)]
    rw [hCm, hWm, hA1m, hA2m]
    simp only [Option.bind_eq_bind, Option.some_bind]
    rw [hEterm]
  have hfun : proverRespond M ((n0 :: nt).map VNode.msg) x P
      = fun st => some (PolyRound2.mk x P Cg Wg A1g A2g e
          (fAdd st.k (fMul e st.wi))) :=
    funext hresp
  simp only [interactiveProve]
  rw [hfun, mapM_option_some]
  simp only [Option.bind_eq_bind, Option.some_bind]
  have hfin : proverFinalize (((n0 :: nt).map VNode.st).map
      (fun st => PolyRound2.mk x P Cg Wg A1g A2g e
        (fAdd st.k (fMul e st.wi))))
      = some (RawProof.mk Cg Wg P A1g A2g x
          (combineVectors ((((n0 :: nt).map VNode.st).map
              (fun st => PolyRound2.mk x P Cg Wg A1g A2g e
                (fAdd st.k (fMul e st.wi)))).map (fun r => r.z))
            (List.replicate (((n0 :: nt).map VNode.st).map
              (fun st => PolyRound2.mk x P Cg Wg A1g A2g e
                (fAdd st.k (fMul e st.wi)))).length 1))) := rfl
  rw [hfin]
  have hLz : ((((n0 :: nt).map VNode.st).map
      (fun st => PolyRound2.mk x P Cg Wg A1g A2g e
        (fAdd st.k (fMul e st.wi)))).map (fun r => r.z))
      = (n0 :: nt).map (fun n => fAdd n.st.k (fMul e n.st.wi)) := by
    simp only [List.map_map]
    rfl
  have hLlen : (((n0 :: nt).map VNode.st).map
      (fun st => PolyRound2.mk x P Cg Wg A1g A2g e
        (fAdd st.k (fMul e st.wi)))).length
      = ((n0 :: nt).map (fun n => fAdd n.st.k (fMul e n.st.wi))).length := by
    simp [List.length_map]
  rw [hLz, hLlen]
  have hzc : combineVectors
      ((n0 :: nt).map (fun n => fAdd n.st.k (fMul e n.st.wi)))
      (List.replicate
        ((n0 :: nt).map (fun n => fAdd n.st.k (fMul e n.st.wi))).length 1)
      = z := by
    simp only [combineVectors]
    rw [zip_ones_foldl]
    rw [← hz1, hz2]
  rw [hzc]

/-- A single concrete node: points `C = W = G`-style coordinates,
secrets `k = w = 1`, OLE sample `a = b = 1`, index `0`. -/
def vnode0 : VNode :=
  { msg := { Ci := (1, 0), Wi := (1, 0), A1i := (2, 0), A2i := (2, 0) },
    st := { k := 1, wi := 1 }, a := 1, b := 1, idx := 0 }

set_option maxRecDepth 40000 in
/-- Witness for C8: the one-node VOLE aggregation at challenge `e0`
succeeds, so the interactive prover emits the identical proof. -/
theorem c8_vole_refinement_witness :
    (∀ a b w k e' : Int,
      fAdd (fAdd (fMul a e') b)
        (fAdd (fMul e' (fSub w a)) (fSub k b)) = fAdd k (fMul e' w)) ∧
    interactiveProve fakeECModel ([vnode0].map VNode.msg) 1 (3, 0)
      ([vnode0].map VNode.st)
      = some (RawProof.mk (1, 0) (1, 0) (3, 0) (2, 0) (2, 0) 1 (e0 + 1)) :=
  c8_vole_refinement fakeECModel [vnode0] 1 (3, 0) e0
    (RawProof.mk (1, 0) (1, 0) (3, 0) (2, 0) (2, 0) 1 (e0 + 1)) (by decide)

/-! ### Claim C9 — ROLE sample correctness -/

/-- A concrete stand-in for Keccak-256 over byte lists: pad with zeros
and keep 32 bytes (any function of this shape instantiates the
abstract hash). -/
def hashC9 : List Nat → List Nat := fun bs => (bs ++ List.replicate 32 0).take 32

/-- A concrete stand-in for `hkdfKeccak`: all-zero output. -/
def hkdfC9 : List Nat → List Nat → List Nat → Nat → List Nat :=
  fun _ _ _ n => List.replicate n 0

/-- IKNP sender key `k0` for the single OT. -/
def k0C9 : List (List Nat) := [List.replicate 32 0]

/-- IKNP sender key `k1` for the single OT. -/
def k1C9 : List (List Nat) := [List.replicate 32 9]

/-- Receiver choice-bit vector: the single bit `0`. -/
def choicesC9 : BV := { len := 1, data := [0] }

/-- Receiver choice-bit vector: the single bit `1`. -/
def choicesC9one : BV := { len := 1, data := [1] }

/-- The end-to-end ROLE check for one OLE of one bit: run the sender's
round 2, then the receiver's round 2, and report whether
`y₀ = a₀·x₀ + b₀ (mod N)` together with the receiver's input `x₀`. -/
def roleCheck (choices : BV) (keys : List (List Nat)) : Option (Bool × Nat) := do
  let (sp, cts) ← roleSenderRound2 hashC9 hkdfC9 1 1 k0C9 k1C9
  let rp ← roleReceiverRound2 hashC9 1 1 choices keys cts.1 cts.2
  some (decide (rp.y.getD 0 0
    = (sp.a.getD 0 0 * rp.x.getD 0 0 + sp.b.getD 0 0) % secpNn),
    rp.x.getD 0 0)

set_option maxRecDepth 40000 in
/-- C9 (refuted — code bug): with choice bit `0` (receiver key `k0`),
both rounds succeed, the receiver's input is `x₀ = 0`, yet
`y₀ ≠ a₀·x₀ + b₀ (mod N)`: `beaver.ts` selects the ciphertext with
`choice === 0 ? ct0 : ct1` where `choice` is a JavaScript boolean, so
the strict comparison is always false and `ct1` is always taken — the
receiver unmasks `ct1` with key `k0` and obtains garbage.  With choice
bit `1` (key `k1`) the identity does hold, confirming the embedding:
only the `0`-bit path is broken. -/
theorem c9_role_sample_bug :
    roleCheck choicesC9 k0C9 = some (false, 0) ∧
    roleCheck choicesC9one k1C9 = some (true, 1) := by
  constructor
  · decide
  · decide
